import Mathlib

/-!
Verification development for the virtual-tool grouping engine of
`vscode-copilot-chat` (files `virtualToolGrouper.ts`, `toolEmbeddingsCache.ts`
and the `ToolEmbeddingsComputer` variant).

The TypeScript code is shallowly embedded: the mutable virtual-tool tree is a
nested inductive value, JavaScript `Map` objects are association lists that
mirror `Map` semantics (`set` on an existing key updates in place, `delete`
then `set` re-appends at the end), asynchronous oracle calls are an input
function from toolset key and attempt number to a result, and the cancellation
token is a boolean.  `virtualTool.ts` and `virtualToolsConstants.ts` are not
part of the sources at hand, so the tree operations (`tools()`, `all()`,
`cloneWithPfx`) and the numeric constants are modelled from the spec and
passed as parameters where their values matter.
-/

namespace VTool

/-- Discriminated tool source: builtin, extension(id) or MCP server(label),
mirroring the `instanceof` checks in `addGroups`. -/
inductive ToolSource where
  | builtin : ToolSource
  | extension (id : String) : ToolSource
  | mcp (label : String) : ToolSource
  deriving DecidableEq, Repr

/-- `LanguageModelToolInformation` restricted to the fields the grouper reads. -/
structure ToolInfo where
  name : String
  description : String
  source : ToolSource
  deriving DecidableEq, Repr

/-- `ISummarizedToolCategory`: a named, summarized group of tools produced by
the categorization oracle. -/
structure ToolCategory where
  name : String
  summary : String
  tools : List ToolInfo
  deriving DecidableEq, Repr

/-- The `metadata` record of a `VirtualTool`. -/
structure VTMeta where
  toolsetKey : Option String
  groups : List ToolCategory
  possiblePfx : String
  preExpanded : Bool
  deriving DecidableEq, Repr

/-- A node of the virtual-tool tree: either a leaf tool or a `VirtualTool`
group with its name, description, expansion flag, `lastUsedOnTurn`, metadata
and ordered children. -/
inductive Item where
  | tool (info : ToolInfo) : Item
  | vt (name : String) (description : String) (isExpanded : Bool)
      (lastUsedOnTurn : Nat) (meta : VTMeta) (contents : List Item) : Item

/-- Name of an item (both leaves and groups expose `.name`). -/
def nameOf : Item → String
  | .tool t => t.name
  | .vt n _ _ _ _ _ => n

/-- Whether the item is a `VirtualTool` (the `instanceof VirtualTool` check). -/
def isVt : Item → Bool
  | .tool _ => false
  | .vt _ _ _ _ _ _ => true

/-- `possiblePrefix` of a group, `""` for a leaf (JS `undefined` and `""` are
both falsy in the dedup check, so the empty string models both). -/
def prefixOf : Item → String
  | .tool _ => ""
  | .vt _ _ _ _ m _ => m.possiblePfx

/-- The truthiness test `item instanceof VirtualTool && item.metadata.possiblePrefix`. -/
def truthyPfx : Item → Bool
  | .tool _ => false
  | .vt _ _ _ _ m _ => m.possiblePfx ≠ ""

/-- `contents.length` of a group, 0 for a leaf. -/
def contentsLenOf : Item → Nat
  | .tool _ => 0
  | .vt _ _ _ _ _ cs => cs.length

/-- `isExpanded` of a group, `false` for a leaf. -/
def isExpandedOf : Item → Bool
  | .tool _ => false
  | .vt _ _ e _ _ _ => e

/-- Modelled from the spec: `virtualTool.ts` is not among the sources; the
spec says `VirtualTool` names carry a fixed synthetic prefix so that they
cannot collide with real tool names.  The upstream value is used verbatim. -/
def VIRTUAL_TOOL_NAME_PFX : String := "activate_"

/-- Modelled from the spec: `cloneWithPfx(prefix)` of `virtualTool.ts` is
not among the sources.  Per the spec it returns a new node with the same
contents and description but a renamed identity; the synthetic name prefix is
kept and the disambiguating prefix is inserted after it. -/
def cloneWithPfx (pfx : String) : Item → Item
  | .tool t => .tool t
  | .vt n d e lu m cs =>
    .vt (VIRTUAL_TOOL_NAME_PFX ++ pfx ++ n.drop VIRTUAL_TOOL_NAME_PFX.length)
      d e lu m cs

/-- Whether a string starts with the synthetic virtual-tool name prefix (the
spec guarantees that real tool names do not, so groups and leaves cannot
collide before deduplication). -/
def hasVp (s : String) : Prop := ∃ r, s = VIRTUAL_TOOL_NAME_PFX ++ r

/-- Whether an item is a leaf tool. -/
def leafItem : Item → Bool
  | .tool _ => true
  | .vt _ _ _ _ _ _ => false

/-- An item whose children (if any) are all leaves — the shape of every item
the assembly pipeline produces, where group children come from a category's
tool list. -/
def twoLevelItem : Item → Bool
  | .tool _ => true
  | .vt _ _ _ _ _ cs => cs.all leafItem

/-- A `contents` listing of two-level items. -/
def twoLevelList (l : List Item) : Bool := l.all twoLevelItem

mutual
/-- Modelled from the spec: visible-item contribution of one node, per the
`tools()` traversal — a leaf counts 1, a collapsed group counts 1, an expanded
group contributes its children's visible items. -/
def visibleCountItem : Item → Nat
  | .tool _ => 1
  | .vt _ _ isExp _ _ cs => if isExp then visibleCountList cs else 1

/-- Visible-item count of a `contents` listing (`Iterable.length(root.tools())`). -/
def visibleCountList : List Item → Nat
  | [] => 0
  | i :: rest => visibleCountItem i + visibleCountList rest
end

mutual
/-- Modelled from the spec: `all()` of `virtualTool.ts` is not among the
sources; per the spec it is a depth-first traversal yielding every node and
leaf (pre-order: a group before its children). -/
def allItems : Item → List Item
  | .tool t => [.tool t]
  | .vt n d e lu m cs => .vt n d e lu m cs :: allItemsList cs

/-- Depth-first traversal of a `contents` listing (the root container itself
is not part of its own traversal in this model). -/
def allItemsList : List Item → List Item
  | [] => []
  | i :: rest => allItems i ++ allItemsList rest
end

end VTool

/-! ### JavaScript `Map` semantics as an association list

`Map.set` on an existing key updates the value in place (insertion order is
kept), `Map.delete` removes the entry, `Map.values()` iterates in insertion
order.  Keys here are always strings. -/

/-- `map.get(k)`. -/
def mapGet {α : Type} : List (String × α) → String → Option α
  | [], _ => none
  | (k', v) :: m, k => if k' = k then some v else mapGet m k

/-- `map.set(k, v)`. -/
def mapSet {α : Type} : List (String × α) → String → α → List (String × α)
  | [], k, v => [(k, v)]
  | (k', v') :: m, k, v =>
    if k' = k then (k, v) :: m else (k', v') :: mapSet m k v

/-- `map.delete(k)` (keys are unique, so removing every match coincides). -/
def mapDelete {α : Type} : List (String × α) → String → List (String × α)
  | [], _ => []
  | (k', v') :: m, k =>
    if k' = k then mapDelete m k else (k', v') :: mapDelete m k

/-- The keys of the map, in insertion order. -/
def mapKeys {α : Type} (m : List (String × α)) : List String := m.map (·.1)

/-- `[...map.values()]`. -/
def mapValues {α : Type} (m : List (String × α)) : List α := m.map (·.2)

namespace VTool

/-! ### `VirtualToolGrouper.deduplicateGroups` -/

/-- One iteration of the `for (const item of grouped)` loop of
`deduplicateGroups`: look the name up in `seen`; on a miss store the item; on
a collision rename the kept group via its `possiblePrefix` (re-keying it and
storing the new item under the original name), else rename the new group via
its prefix, else drop the new item. -/
def dedupStep (seen : List (String × Item)) (item : Item) : List (String × Item) :=
  match mapGet seen (nameOf item) with
  | none => mapSet seen (nameOf item) item
  | some saw =>
    if truthyPfx saw then
      let m1 := mapDelete seen (nameOf saw)
      let repl := cloneWithPfx (prefixOf saw) saw
      mapSet (mapSet m1 (nameOf repl) repl) (nameOf item) item
    else if truthyPfx item then
      let nxt := cloneWithPfx (prefixOf item) item
      mapSet seen (nameOf nxt) nxt
    else seen

/-- `VirtualToolGrouper.deduplicateGroups`, returning `[...seen.values()]`. -/
def deduplicateGroups (grouped : List Item) : List Item :=
  mapValues (grouped.foldl dedupStep [])

/-! ### Configuration constants

Modelled from the spec: `virtualToolsConstants.ts` and the configuration
service that defines `HARD_TOOL_LIMIT` are not among the sources, so the
constants are carried as explicit parameters. -/

structure Config where
  startGroupingAfterToolCount : Nat
  minToolsetSizeToGroup : Nat
  groupWithinToolset : Nat
  maxCategorizationRetries : Nat
  uncategorizedGroupName : String
  expandUntilCount : Nat
  hardToolLimit : Nat
  deriving DecidableEq, Repr

/-- Error raised by an oracle call; the source's `catch (e)` clause does not
inspect the error, so only the distinction relevant to the claims is kept. -/
inductive OracleError where
  | cancelled : OracleError
  | generic : OracleError
  deriving DecidableEq, Repr

/-- One categorization attempt for a toolset: the awaited
`cache.getOrInsert(tools, computeFn)` from the retry loop, as a function of
the toolset key and the attempt number.  `Except.error` models a thrown
exception, `.ok none` models an `undefined` result (the summarizer returning
nothing), `.ok (some cats)` a produced categorization.  The choice between
`summarizeToolGroup` and `divideToolsIntoGroups` (and the pruning of a
previous categorization) happens inside `computeFn` and is internal to this
function. -/
abbrev Oracle := String → Nat → Except OracleError (Option (List ToolCategory))

/-- The retry loop
`for (; !virts && retries < MAX_CATEGORIZATION_RETRIES; retries++)` with its
catch-all `catch (e) { log }`: any error or `undefined` result counts the
attempt and retries. -/
def categorizeWithRetries (oracleK : Nat → Except OracleError (Option (List ToolCategory))) :
    Nat → Nat → Option (List ToolCategory)
  | 0, _ => none
  | fuel + 1, attempt =>
    match oracleK attempt with
    | .ok (some cats) => some cats
    | _ => categorizeWithRetries oracleK fuel (attempt + 1)

/-- Number of oracle calls the retry loop performs. -/
def categorizationAttempts (oracleK : Nat → Except OracleError (Option (List ToolCategory))) :
    Nat → Nat → Nat
  | 0, _ => 0
  | fuel + 1, attempt =>
    match oracleK attempt with
    | .ok (some _) => 1
    | _ => 1 + categorizationAttempts oracleK fuel (attempt + 1)

/-- `possiblePrefix?.replaceAll(/[^a-zA-Z0-9]/g, '_').slice(0, 10)`. -/
def sanitizePfx (s : String) : String :=
  String.mk ((s.toList.map fun c => if c.isAlphanum then c else '_').take 10)

/-- The disambiguation prefix derived from `tools[0].source`: the extension
id's second dot-segment (falling back to the id when absent or empty), or the
MCP server label; sanitized, truncated, suffixed `_`.  The `+ '_'` sits
outside the optional chain, so a missing source yields the JS coercion
`undefined + '_' === "undefined_"`. -/
def possiblePrefixFromSource : Option ToolSource → String
  | some (.extension id) =>
    sanitizePfx (match (id.splitOn ".").get? 1 with
      | some seg => if seg = "" then id else seg
      | none => id) ++ "_"
  | some (.mcp label) => sanitizePfx label ++ "_"
  | _ => "undefined_"

/-- `SUMMARY_PFX` from `virtualToolGrouper.ts`. -/
def SUMMARY_PFX : String :=
  "Call this tool when you need access to a new category of tools. The category of tools is described as follows:\n\n"

/-- `SUMMARY_SUFFIX` from `virtualToolGrouper.ts`. -/
def SUMMARY_SUFFIX : String :=
  "\n\nBe sure to call this tool if you need a capability related to the above."

/-- `BUILT_IN_GROUP` from `virtualToolGrouper.ts`. -/
def BUILT_IN_GROUP : String := "builtin"

/-- `uncategorized = virts[group].tools` when a category literally named the
uncategorized sentinel is found (`findIndex` takes the first), else `[]`. -/
def genUncat (uncatName : String) (cats : List ToolCategory) : List ToolInfo :=
  match cats.findIdx? fun g => g.name = uncatName with
  | some i =>
    match cats.get? i with
    | some g => g.tools
    | none => []
  | none => []

/-- The categories left after `virts.splice(group, 1)` removed the
uncategorized sentinel (if present). -/
def genVirts (uncatName : String) (cats : List ToolCategory) : List ToolCategory :=
  match cats.findIdx? fun g => g.name = uncatName with
  | some i => cats.eraseIdx i
  | none => cats

/-- One `VirtualTool` built from a category: prefixed name, instructional
description, collapsed, `lastUsedOnTurn = 0`, metadata referencing the whole
(spliced) categorization, children the category's tools. -/
def mkVtItem (key pfx : String) (virts : List ToolCategory)
    (v : ToolCategory) : Item :=
  Item.vt (VIRTUAL_TOOL_NAME_PFX ++ v.name)
    (SUMMARY_PFX ++ v.summary ++ SUMMARY_SUFFIX) false 0
    { toolsetKey := some key, groups := virts, possiblePfx := pfx,
      preExpanded := false }
    (v.tools.map Item.tool)

/-- `_generateGroupsFromToolset`: pass small toolsets through, otherwise run
the retry loop; on exhaustion every tool of the toolset is uncategorized;
otherwise one `VirtualTool` per remaining category followed by the
uncategorized tools. -/
def generateGroupsFromToolset (cfg : Config) (oracle : Oracle) (key : String)
    (tools : List ToolInfo) : List Item :=
  if tools.length ≤ cfg.minToolsetSizeToGroup then tools.map Item.tool
  else
    match categorizeWithRetries (oracle key) cfg.maxCategorizationRetries 0 with
    | none => tools.map Item.tool
    | some cats =>
      (genVirts cfg.uncategorizedGroupName cats).map
        (mkVtItem key (possiblePrefixFromSource ((tools.head?).map (·.source)))
          (genVirts cfg.uncategorizedGroupName cats))
      ++ (genUncat cfg.uncategorizedGroupName cats).map Item.tool

/-- Oracle calls made for one toolset (0 when it is passed through). -/
def genAttempts (cfg : Config) (oracle : Oracle) (key : String)
    (tools : List ToolInfo) : Nat :=
  if tools.length ≤ cfg.minToolsetSizeToGroup then 0
  else categorizationAttempts (oracle key) cfg.maxCategorizationRetries 0

/-- The partition key of `groupBy`: `'ext_' + id`, `'mcp_' + label` or the
builtin sentinel. -/
def toolsetKeyOf (t : ToolInfo) : String :=
  match t.source with
  | .extension id => "ext_" ++ id
  | .mcp label => "mcp_" ++ label
  | .builtin => BUILT_IN_GROUP

/-- Append a tool to its group, creating it at the end on first sight (the
`Object.entries` order of `groupBy` is first-occurrence order for these
non-index string keys). -/
def groupAppend : List (String × List ToolInfo) → String → ToolInfo →
    List (String × List ToolInfo)
  | [], k, t => [(k, [t])]
  | (k', ts) :: m, k, t =>
    if k' = k then (k', ts ++ [t]) :: m else (k', ts) :: groupAppend m k t

/-- `groupBy(tools, toolsetKeyOf)` as an ordered list of toolsets. -/
def groupByToolset (tools : List ToolInfo) : List (String × List ToolInfo) :=
  tools.foldl (fun acc t => groupAppend acc (toolsetKeyOf t) t) []

/-- The per-toolset outputs in `Promise.all` order, flattened
(`grouped.flat()`); builtin tools bypass categorization. -/
def flattenGrouped (cfg : Config) (oracle : Oracle) (tools : List ToolInfo) :
    List Item :=
  ((groupByToolset tools).map fun kv =>
    if kv.1 = BUILT_IN_GROUP then kv.2.map Item.tool
    else generateGroupsFromToolset cfg oracle kv.1 kv.2).flatten

/-- Snapshot of one previous `VirtualTool` used by the carry-over step. -/
structure PrevState where
  isExpanded : Bool
  preExpanded : Bool
  lastUsedOnTurn : Nat
  deriving DecidableEq, Repr

/-- The `previousGroups` map: walk the old tree, keeping for every
`VirtualTool` its name and the carried-over state (a later node of the same
name overwrites an earlier one, as with `Map.set`). -/
def buildPrevMap (prev : List Item) : List (String × PrevState) :=
  (allItemsList prev).foldl
    (fun m it =>
      match it with
      | .tool _ => m
      | .vt n _ e lu meta _ => mapSet m n ⟨e, meta.preExpanded, lu⟩)
    []

mutual
/-- The carry-over loop `for (const tool of root.all())`: every `VirtualTool`
whose name has a previous snapshot receives the previous `isExpanded`,
`metadata.preExpanded` and `lastUsedOnTurn`. -/
def carryOverItem (pm : List (String × PrevState)) : Item → Item
  | .tool t => .tool t
  | .vt n d e lu meta cs =>
    match mapGet pm n with
    | some ps =>
      .vt n d ps.isExpanded ps.lastUsedOnTurn
        { meta with preExpanded := ps.preExpanded } (carryOverList pm cs)
    | none => .vt n d e lu meta (carryOverList pm cs)

/-- Carry-over applied to a `contents` listing. -/
def carryOverList (pm : List (String × PrevState)) : List Item → List Item
  | [] => []
  | i :: rest => carryOverItem pm i :: carryOverList pm rest
end

/-! ### The two expansion passes -/

/-- Index the elements of a list starting at `start`. -/
def withIdx {α : Type} (start : Nat) : List α → List (Nat × α)
  | [] => []
  | x :: xs => (start, x) :: withIdx (start + 1) xs

/-- `vtool.isExpanded = true; vtool.metadata.preExpanded = true` (identity on
leaves — the passes only select `VirtualTool`s). -/
def expandItem : Item → Item
  | .tool t => .tool t
  | .vt n d _ lu meta cs => .vt n d true lu { meta with preExpanded := true } cs

/-- Flip the expansion flags of the element at index `i`. -/
def expandAt : List Item → Nat → List Item
  | [], _ => []
  | x :: xs, 0 => expandItem x :: xs
  | x :: xs, n + 1 => x :: expandAt xs n

/-- `contents[i].contents.length` in the current tree (0 out of range). -/
def contentsLenAt (contents : List Item) (i : Nat) : Nat :=
  match contents.get? i with
  | some it => contentsLenOf it
  | none => 0

/-- `t instanceof VirtualTool && !t.isExpanded`. -/
def isUnexpandedVt : Item → Bool
  | .tool _ => false
  | .vt _ _ e _ _ _ => !e

/-- Stable insertion preserving earlier equal elements before `x`. -/
def insertLE {α : Type} (le : α → α → Bool) (x : α) : List α → List α
  | [] => [x]
  | y :: ys => if le y x then y :: insertLE le x ys else x :: y :: ys

/-- A stable sort with respect to the comparator-induced `le`, modelling the
stable `Array.prototype.sort`. -/
def stableSortBy {α : Type} (le : α → α → Bool) (l : List α) : List α :=
  l.foldl (fun acc x => insertLE le x acc) []

/-- `toolPriority.get(name)`: the index of the last occurrence of `name` in
the predicted list (a `forEach` of `Map.set` lets later indices win). -/
def lastIdxOf (names : List String) (n : String) : Option Nat :=
  (withIdx 0 names).foldl (fun acc p => if p.2 = n then some p.1 else acc) none

/-- Sort key of a candidate group in the query-driven pass: the best (lowest)
priority among its direct children that are predicted (always defined for a
candidate, which has at least one predicted direct child; 0 is a dummy for the
unreachable empty case, where JS would produce `Math.min() = Infinity`). -/
def minPriority (predictedNames : List String) : Item → Nat
  | .tool _ => 0
  | .vt _ _ _ _ _ cs =>
    match cs.filterMap (fun c => lastIdxOf predictedNames (nameOf c)) with
    | [] => 0
    | p :: ps => ps.foldl Nat.min p

/-- Whether a top-level group qualifies for the query-driven pass: collapsed
and with a direct child whose name is predicted. -/
def isPredictedCandidate (predictedNames : List String) : Item → Bool
  | .tool _ => false
  | .vt _ _ e _ _ cs =>
    !e && cs.any fun c => predictedNames.contains (nameOf c)

/-- The shared expansion loop of both passes, over the chosen candidate
indices in order: compute `nextCount = toolCount - 1 + vtool.contents.length`
(JS number arithmetic, hence `Int`); `break` when it would exceed the hard
limit; otherwise expand and continue — and in the budget-driven pass
(`euStop = some eu`) also `break` once the count exceeds the expand-until
threshold. -/
def expansionLoop (hard : Nat) (euStop : Option Nat) :
    List Item → Int → List Nat → List Item
  | contents, _, [] => contents
  | contents, count, i :: rest =>
    let next : Int := count - 1 + (contentsLenAt contents i : Nat)
    if next > (hard : Int) then contents
    else
      let expanded := expandAt contents i
      match euStop with
      | none => expansionLoop hard none expanded next rest
      | some eu =>
        if next > (eu : Int) then expanded
        else expansionLoop hard (some eu) expanded next rest

/-- `_expandGroupsWithPredictedTools`: nothing to do without predictions;
otherwise expand the collapsed top-level groups that contain a predicted
direct child, in order of their best predicted priority, under the hard
limit. -/
def expandGroupsWithPredictedTools (hard : Nat) (predicted : List ToolInfo)
    (contents : List Item) : List Item :=
  if predicted.isEmpty then contents
  else
    expansionLoop hard none contents ((visibleCountList contents : Nat) : Int)
      ((stableSortBy
        (fun a b => minPriority (predicted.map (·.name)) a.2 ≤
          minPriority (predicted.map (·.name)) b.2)
        ((withIdx 0 contents).filter fun p =>
          isPredictedCandidate (predicted.map (·.name)) p.2)).map (·.1))

/-- `_reExpandToolsToHitBudget`: skip when the visible count already exceeds
`EXPAND_UNTIL_COUNT`; otherwise expand the collapsed top-level groups in
ascending order of child count until the threshold is passed or the next
expansion would exceed the hard limit. -/
def reExpandToolsToHitBudget (hard eu : Nat) (contents : List Item) : List Item :=
  if ((visibleCountList contents : Nat) : Int) > (eu : Int) then contents
  else
    expansionLoop hard (some eu) contents ((visibleCountList contents : Nat) : Int)
      ((stableSortBy (fun a b => contentsLenOf a.2 ≤ contentsLenOf b.2)
        ((withIdx 0 contents).filter fun p => isUnexpandedVt p.2)).map (·.1))

/-- The budget-driven expansion as the spec words it, for comparison against
the embedded code: stop as soon as the visible count exceeds the expand-until
threshold, or when the next expansion would push the count over the hard
limit; recompute the count after each expansion as the previous count minus
one plus the number of children of the expanded group. -/
def budgetExpandSpecLoop (hard eu : Nat) :
    List Item → Int → List Nat → List Item
  | contents, _, [] => contents
  | contents, count, i :: rest =>
    if count > (eu : Int) then contents
    else
      let next : Int := count - 1 + (contentsLenAt contents i : Nat)
      if next > (hard : Int) then contents
      else budgetExpandSpecLoop hard eu (expandAt contents i) next rest

/-- The whole budget-driven pass as the spec words it: skip when the count
after grouping already exceeds the expand-until threshold, else expand the
unexpanded top-level groups in ascending order of child count under the
stopping rules of `budgetExpandSpecLoop`. -/
def budgetExpansionAsSpecified (hard eu : Nat) (contents : List Item) : List Item :=
  if ((visibleCountList contents : Nat) : Int) > (eu : Int) then contents
  else
    budgetExpandSpecLoop hard eu contents ((visibleCountList contents : Nat) : Int)
      ((stableSortBy (fun a b => contentsLenOf a.2 ≤ contentsLenOf b.2)
        ((withIdx 0 contents).filter fun p => isUnexpandedVt p.2)).map (·.1))

/-! ### `addGroups` -/

/-- `root.contents` after deduplication and state carry-over — the tree as
assembled before the two expansion passes (for small tool lists the
short-circuited assignment `root.contents = tools`). -/
def assembleContents (cfg : Config) (oracle : Oracle) (prev : List Item)
    (tools : List ToolInfo) : List Item :=
  if tools.length < cfg.startGroupingAfterToolCount then tools.map Item.tool
  else
    carryOverList (buildPrevMap prev)
      (deduplicateGroups (flattenGrouped cfg oracle tools))

/-- `addGroups(query, root, tools, token)`: short-circuit small tool lists;
otherwise partition, categorize, deduplicate, carry state over, then run the
query-driven pass (behind its configuration flag, with the predicted tools an
input produced by the embedding subsystem) and the budget-driven pass.  The
returned list is the new `root.contents`. -/
def addGroups (cfg : Config) (oracle : Oracle) (rankingFlag : Bool)
    (predicted : List ToolInfo) (prev : List Item) (tools : List ToolInfo) :
    List Item :=
  if tools.length < cfg.startGroupingAfterToolCount then tools.map Item.tool
  else
    reExpandToolsToHitBudget cfg.hardToolLimit cfg.expandUntilCount
      (if rankingFlag then
        expandGroupsWithPredictedTools cfg.hardToolLimit predicted
          (assembleContents cfg oracle prev tools)
      else assembleContents cfg oracle prev tools)

/-- Total number of categorization-oracle calls an `addGroups` run performs. -/
def addGroupsOracleCalls (cfg : Config) (oracle : Oracle)
    (tools : List ToolInfo) : Nat :=
  if tools.length < cfg.startGroupingAfterToolCount then 0
  else
    ((groupByToolset tools).map fun kv =>
      if kv.1 = BUILT_IN_GROUP then 0
      else genAttempts cfg oracle kv.1 kv.2).sum

/-! ### Concrete objects for witnesses and counterexamples

The numeric constants are parameters of the embedding (their upstream values
are not part of the sources), so concrete runs fix a small representative
configuration. -/

/-- A builtin leaf tool. -/
def mkBuiltin (n : String) : ToolInfo := ⟨n, "desc", .builtin⟩

/-- A bare collapsed group with a given disambiguation prefix and no children. -/
def wVt (n p : String) : Item := .vt n "vdesc" false 0 ⟨none, [], p, false⟩ []

/-- A bare leaf item. -/
def wLeaf (n : String) : Item := .tool (mkBuiltin n)

/-- Deduplication input where a later collision's rename lands on the name of
an earlier collision pair, displacing its kept entry. -/
def c2cex : List Item :=
  [wVt "activate_p_x" "q_", wLeaf "activate_p_x",
   wVt "activate_x" "p_", wLeaf "activate_x"]

/-- Deduplication input whose first two leaves collide without prefixes and
whose later rename overwrites the kept first occurrence. -/
def c9cex : List Item :=
  [wLeaf "activate_p_x", wLeaf "activate_p_x",
   wVt "activate_x" "p_", wLeaf "activate_x"]

/-- A small representative configuration for concrete runs. -/
def wCfg : Config :=
  { startGroupingAfterToolCount := 2, minToolsetSizeToGroup := 1,
    groupWithinToolset := 5, maxCategorizationRetries := 3,
    uncategorizedGroupName := "uncategorized", expandUntilCount := 3,
    hardToolLimit := 3 }

/-- An oracle that never produces a categorization. -/
def wOracleNone : Oracle := fun _ _ => .ok none

/-- An oracle that throws a cancellation error on every attempt. -/
def wOracleCancel : Oracle := fun _ _ => .error .cancelled

/-- Five builtin tools — more than the hard limit of `wCfg`. -/
def wTools5 : List ToolInfo :=
  [mkBuiltin "b1", mkBuiltin "b2", mkBuiltin "b3", mkBuiltin "b4", mkBuiltin "b5"]

/-- Two MCP tools from one server. -/
def wT1 : ToolInfo := ⟨"t1", "d1", .mcp "s"⟩

/-- Second MCP tool of the same server. -/
def wT2 : ToolInfo := ⟨"t2", "d2", .mcp "s"⟩

/-- An oracle producing one category `g` for the `mcp_s` toolset. -/
def wOracleG : Oracle := fun k _ =>
  if k = "mcp_s" then .ok (some [⟨"g", "sum", [wT1, wT2]⟩]) else .ok none

/-- A previous tree carrying an expanded group named like the one `wOracleG`
regenerates. -/
def wPrev : List Item :=
  [.vt "activate_g" "d" true 7 ⟨some "mcp_s", [], "x_", true⟩ []]

/-- The group `addGroups wCfg wOracleG false [] wPrev [wT1, wT2]` produces:
freshly categorized, then carrying over the `wPrev` state by name. -/
def wVtFinal : Item :=
  Item.vt "activate_g" (SUMMARY_PFX ++ "sum" ++ SUMMARY_SUFFIX) true 7
    { toolsetKey := some "mcp_s", groups := [⟨"g", "sum", [wT1, wT2]⟩],
      possiblePfx := "s_", preExpanded := true }
    [Item.tool wT1, Item.tool wT2]

end VTool

namespace TEC

/-! ### `ToolEmbeddingsComputer`

Shallow embedding of the runtime embedding store.  An embedding vector is a
list of integers (its contents are opaque to this component), the external
embedding service is a function that may throw (`Except.error`), return
`undefined` (`.ok none`) or return vectors (`.ok (some vs)`), and the ranking
function `rankEmbeddings` (defined outside the sources at hand) is an
arbitrary input function. -/

abbrev Emb := List Int

/-- The external `embeddingsComputer.computeEmbeddings` call. -/
abbrev EmbService := List String → Except Unit (Option (List Emb))

/-- `rankEmbeddings(query, corpus, count).map(x => x.value)` as a black box. -/
abbrev Ranker := Emb → List (String × Emb) → Nat → List String

/-- The mutable fields of `ToolEmbeddingsComputer`. -/
structure TECState where
  store : List (String × Emb)
  isInitialized : Bool
  deriving DecidableEq, Repr

/-- `computeEmbeddingsForTools`: bail out on cancellation; call the service;
treat an `undefined` result, an empty result or a count mismatch as a total
failure for the batch; otherwise align names and vectors 1:1. -/
def computeEmbeddingsForTools (svc : EmbService) (toolNames : List String)
    (cancelled : Bool) : Except Unit (Option (List (String × Emb))) :=
  if cancelled then .ok none
  else
    match svc toolNames with
    | .error e => .error e
    | .ok none => .ok none
    | .ok (some vs) =>
      if vs.length = 0 ∨ vs.length ≠ toolNames.length then .ok none
      else .ok (some (toolNames.zip vs))

/-- `computeMissingEmbeddings`: compute and store the missing vectors, with
the `try/catch` that swallows a thrown service error (the store is left
untouched on any failure). -/
def computeMissingEmbeddings (svc : EmbService) (store : List (String × Emb))
    (missing : List String) (cancelled : Bool) : List (String × Emb) :=
  if cancelled ∨ missing.isEmpty then store
  else
    match computeEmbeddingsForTools svc missing cancelled with
    | .error _ => store
    | .ok none => store
    | .ok (some pairs) => pairs.foldl (fun st p => mapSet st p.1 p.2) store

/-- `ensureInitialized`: merge the precomputed snapshot into the store once. -/
def ensureInitialized (pre : List (String × Emb)) (s : TECState) : TECState :=
  if s.isInitialized then s
  else
    { store := pre.foldl (fun st p => mapSet st p.1 p.2) s.store,
      isInitialized := true }

/-- `ensureToolEmbeddings`: the names absent from the store, batched into one
service call. -/
def ensureToolEmbeddings (svc : EmbService) (store : List (String × Emb))
    (toolNames : List String) (cancelled : Bool) : List (String × Emb) :=
  if cancelled then store
  else
    computeMissingEmbeddings svc store
      (toolNames.filter fun n => (mapGet store n).isNone) cancelled

/-- `getAvailableToolEmbeddings`: the corpus handed to the ranker — only the
names that have a vector in the store. -/
def getAvailableToolEmbeddings (store : List (String × Emb))
    (availableToolNames : List String) : List (String × Emb) :=
  availableToolNames.filterMap fun n => (mapGet store n).map fun e => (n, e)

/-- `retrieveSimilarEmbeddingsForAvailableTools`: initialize, backfill missing
embeddings, honor cancellation with an empty result, return `[]` for an empty
corpus, else rank.  The available names (a JS `Set`) are taken in insertion
order. -/
def retrieveSimilarEmbeddingsForAvailableTools (pre : List (String × Emb))
    (svc : EmbService) (ranker : Ranker) (queryEmbedding : Emb)
    (availableToolNames : List String) (count : Nat) (cancelled : Bool)
    (s : TECState) : List String × TECState :=
  let s1 := ensureInitialized pre s
  let store2 := ensureToolEmbeddings svc s1.store availableToolNames cancelled
  let s2 : TECState := { s1 with store := store2 }
  if cancelled then ([], s2)
  else
    let avail := getAvailableToolEmbeddings store2 availableToolNames
    if avail.isEmpty then ([], s2)
    else (ranker queryEmbedding avail count, s2)

/-- A one-entry precomputed snapshot for concrete runs. -/
def wPre : List (String × Emb) := [("a", [1])]

/-- A service that answers every request with zero vectors. -/
def wSvc : EmbService := fun _ => .ok (some [])

/-- A trivial concrete ranker returning the corpus names in order. -/
def wRanker : Ranker := fun _ corpus _ => corpus.map (·.1)

/-- The fresh, uninitialized computer state. -/
def wS0 : TECState := { store := [], isInitialized := false }

end TEC

/-! ## Lemmas about the `Map` model -/

theorem mapGet_set {α : Type} (m : List (String × α)) (k : String) (v : α)
    (q : String) :
    mapGet (mapSet m k v) q = if k = q then some v else mapGet m q := by
  induction m with
  | nil =>
    by_cases h : k = q <;> simp [mapSet, mapGet, h]
  | cons p m ih =>
    obtain ⟨k0, v0⟩ := p
    by_cases h0 : k0 = k
    · subst h0
      by_cases h : k0 = q <;> simp [mapSet, mapGet, h]
    · by_cases h : k0 = q
      · subst h
        have hk : ¬ k = k0 := fun hh => h0 hh.symm
        simp [mapSet, mapGet, h0, hk]
      · simp [mapSet, mapGet, h0, h, ih]

theorem mapGet_delete {α : Type} (m : List (String × α)) (k : String)
    (q : String) :
    mapGet (mapDelete m k) q = if k = q then none else mapGet m q := by
  induction m with
  | nil => by_cases h : k = q <;> simp [mapDelete, mapGet, h]
  | cons p m ih =>
    obtain ⟨k0, v0⟩ := p
    by_cases h0 : k0 = k
    · subst h0
      by_cases h : k0 = q
      · subst h; simp [mapDelete, mapGet, ih]
      · simp [mapDelete, mapGet, h, ih]
    · by_cases h : k0 = q
      · subst h
        have hk : ¬ k = k0 := fun hh => h0 hh.symm
        simp [mapDelete, mapGet, h0, hk]
      · simp [mapDelete, mapGet, h0, h, ih]

theorem mapGet_mem {α : Type} {m : List (String × α)} {k : String} {v : α}
    (h : mapGet m k = some v) : (k, v) ∈ m := by
  induction m with
  | nil => simp [mapGet] at h
  | cons p m ih =>
    obtain ⟨k0, v0⟩ := p
    by_cases h0 : k0 = k
    · subst h0
      simp [mapGet] at h
      subst h
      exact List.mem_cons_self _ _
    · simp [mapGet, h0] at h
      exact List.mem_cons_of_mem _ (ih h)

theorem mem_values_of_get {α : Type} {m : List (String × α)} {k : String}
    {v : α} (h : mapGet m k = some v) : v ∈ mapValues m := by
  have := mapGet_mem h
  exact List.mem_map.mpr ⟨(k, v), this, rfl⟩

theorem mem_mapSet {α : Type} {m : List (String × α)} {k : String} {v : α}
    {p : String × α} (h : p ∈ mapSet m k v) : p = (k, v) ∨ p ∈ m := by
  induction m with
  | nil => simpa [mapSet] using h
  | cons q m ih =>
    obtain ⟨k0, v0⟩ := q
    by_cases h0 : k0 = k
    · subst h0
      simp [mapSet] at h
      rcases h with h | h
      · exact Or.inl (by simp [h])
      · exact Or.inr (List.mem_cons_of_mem _ h)
    · simp [mapSet, h0] at h
      rcases h with h | h
      · exact Or.inr (by simp [h])
      · rcases ih h with h1 | h1
        · exact Or.inl h1
        · exact Or.inr (List.mem_cons_of_mem _ h1)

theorem mem_mapDelete {α : Type} {m : List (String × α)} {k : String}
    {p : String × α} (h : p ∈ mapDelete m k) : p ∈ m := by
  induction m with
  | nil => simp [mapDelete] at h
  | cons q m ih =>
    obtain ⟨k0, v0⟩ := q
    by_cases h0 : k0 = k
    · subst h0
      simp [mapDelete] at h
      exact List.mem_cons_of_mem _ (ih h)
    · simp [mapDelete, h0] at h
      rcases h with h | h
      · exact h ▸ List.mem_cons_self _ _
      · exact List.mem_cons_of_mem _ (ih h)

theorem mapKeys_cons {α : Type} (k : String) (v : α) (m : List (String × α)) :
    mapKeys ((k, v) :: m) = k :: mapKeys m := rfl

theorem mapSet_cons_self {α : Type} (k : String) (v0 v : α)
    (m : List (String × α)) : mapSet ((k, v0) :: m) k v = (k, v) :: m := by
  simp [mapSet]

theorem mapSet_cons_ne {α : Type} {k0 k : String} (h : k0 ≠ k) (v0 v : α)
    (m : List (String × α)) :
    mapSet ((k0, v0) :: m) k v = (k0, v0) :: mapSet m k v := by
  simp [mapSet, h]

theorem mem_keys_mapSet {α : Type} (m : List (String × α)) (k : String)
    (v : α) (a : String) :
    a ∈ mapKeys (mapSet m k v) ↔ a = k ∨ a ∈ mapKeys m := by
  induction m with
  | nil => simp [mapSet, mapKeys, eq_comm]
  | cons q m ih =>
    obtain ⟨k0, v0⟩ := q
    by_cases h0 : k0 = k
    · subst h0
      rw [mapSet_cons_self, mapKeys_cons, mapKeys_cons]
      simp only [List.mem_cons]
      tauto
    · rw [mapSet_cons_ne h0, mapKeys_cons, mapKeys_cons]
      simp only [List.mem_cons]
      rw [ih]
      tauto

theorem nodup_keys_mapSet {α : Type} {m : List (String × α)} {k : String}
    {v : α} (h : (mapKeys m).Nodup) : (mapKeys (mapSet m k v)).Nodup := by
  induction m with
  | nil => simp [mapSet, mapKeys]
  | cons q m ih =>
    obtain ⟨k0, v0⟩ := q
    rw [mapKeys_cons, List.nodup_cons] at h
    by_cases h0 : k0 = k
    · subst h0
      rw [mapSet_cons_self, mapKeys_cons, List.nodup_cons]
      exact h
    · rw [mapSet_cons_ne h0, mapKeys_cons, List.nodup_cons]
      refine ⟨?_, ih h.2⟩
      intro hmem
      rcases (mem_keys_mapSet m k v k0).mp hmem with h1 | h1
      · exact h0 h1
      · exact h.1 h1

theorem keys_mapDelete_sublist {α : Type} (m : List (String × α)) (k : String) :
    (mapKeys (mapDelete m k)).Sublist (mapKeys m) := by
  induction m with
  | nil => simp [mapDelete, mapKeys]
  | cons q m ih =>
    obtain ⟨k0, v0⟩ := q
    by_cases h0 : k0 = k
    · subst h0
      simp only [mapDelete, if_pos rfl]
      exact ih.cons _
    · simp only [mapDelete, if_neg h0, mapKeys, List.map_cons]
      exact ih.cons₂ _

theorem nodup_keys_mapDelete {α : Type} {m : List (String × α)} {k : String}
    (h : (mapKeys m).Nodup) : (mapKeys (mapDelete m k)).Nodup :=
  (keys_mapDelete_sublist m k).nodup h

/-! ## String facts used for the renamed clone identities -/

theorem string_length_drop (s : String) (n : Nat) :
    (s.drop n).length = s.length - n := by
  rw [String.drop_eq]
  show (s.data.drop n).length = s.length - n
  rw [List.length_drop]
  rfl

theorem string_length_pos {s : String} (h : s ≠ "") : 0 < s.length := by
  rcases s with ⟨l⟩
  cases l with
  | nil => exact absurd rfl h
  | cons c cs => simp [String.length]

namespace VTool

theorem nameOf_cloneVt (p n d : String) (e : Bool) (lu : Nat) (meta : VTMeta)
    (cs : List Item) :
    nameOf (cloneWithPfx p (Item.vt n d e lu meta cs)) =
      VIRTUAL_TOOL_NAME_PFX ++ p ++ n.drop VIRTUAL_TOOL_NAME_PFX.length := rfl

theorem hasVp_clone {it : Item} (hv : isVt it = true) (p : String) :
    hasVp (nameOf (cloneWithPfx p it)) := by
  cases it with
  | tool t => simp [isVt] at hv
  | vt n d e lu meta cs =>
    exact ⟨p ++ n.drop VIRTUAL_TOOL_NAME_PFX.length,
      by rw [nameOf_cloneVt, String.append_assoc]⟩

theorem ne_of_hasVp {s t : String} (hs : hasVp s) (ht : ¬ hasVp t) : s ≠ t :=
  fun h => ht (h ▸ hs)

theorem not_hasVp_short {s : String}
    (h : s.length < VIRTUAL_TOOL_NAME_PFX.length) : ¬ hasVp s := by
  rintro ⟨r, rfl⟩
  rw [String.length_append] at h
  omega

theorem clone_name_ne_self {p : String} (hp : p ≠ "") (n : String) :
    VIRTUAL_TOOL_NAME_PFX ++ p ++ n.drop VIRTUAL_TOOL_NAME_PFX.length ≠ n := by
  intro h
  have hl := congrArg String.length h
  rw [String.length_append, String.length_append, string_length_drop] at hl
  have hp1 : 0 < p.length := string_length_pos hp
  have hv9 : VIRTUAL_TOOL_NAME_PFX.length = 9 := rfl
  omega

/-! ## Invariants of the deduplication fold -/

theorem dedupStep_inv {m : List (String × Item)} (it : Item)
    (h1 : (mapKeys m).Nodup) (h2 : ∀ kv ∈ m, nameOf kv.2 = kv.1) :
    (mapKeys (dedupStep m it)).Nodup ∧
      ∀ kv ∈ dedupStep m it, nameOf kv.2 = kv.1 := by
  have hset : ∀ (m0 : List (String × Item)) (v : Item),
      (mapKeys m0).Nodup → (∀ kv ∈ m0, nameOf kv.2 = kv.1) →
      (mapKeys (mapSet m0 (nameOf v) v)).Nodup ∧
        ∀ kv ∈ mapSet m0 (nameOf v) v, nameOf kv.2 = kv.1 := by
    intro m0 v ha hb
    refine ⟨nodup_keys_mapSet ha, ?_⟩
    intro kv hkv
    rcases mem_mapSet hkv with h | h
    · rw [h]
    · exact hb kv h
  unfold dedupStep
  cases hg : mapGet m (nameOf it) with
  | none => exact hset m it h1 h2
  | some saw =>
    by_cases ht : truthyPfx saw = true
    · simp only [ht, if_pos]
      have hdel : (mapKeys (mapDelete m (nameOf saw))).Nodup ∧
          ∀ kv ∈ mapDelete m (nameOf saw), nameOf kv.2 = kv.1 :=
        ⟨nodup_keys_mapDelete h1, fun kv hkv => h2 kv (mem_mapDelete hkv)⟩
      have h3 := hset _ (cloneWithPfx (prefixOf saw) saw) hdel.1 hdel.2
      exact hset _ it h3.1 h3.2
    · simp only [ht, if_neg, if_false, Bool.false_eq_true]
      by_cases ht2 : truthyPfx it = true
      · simp only [ht2, if_pos]
        exact hset m (cloneWithPfx (prefixOf it) it) h1 h2
      · simp only [ht2, if_neg, if_false, Bool.false_eq_true]
        exact ⟨h1, h2⟩

theorem dedupFold_inv (l : List Item) :
    ∀ m : List (String × Item),
      (mapKeys m).Nodup → (∀ kv ∈ m, nameOf kv.2 = kv.1) →
      (mapKeys (l.foldl dedupStep m)).Nodup ∧
        ∀ kv ∈ l.foldl dedupStep m, nameOf kv.2 = kv.1 := by
  induction l with
  | nil => intro m h1 h2; exact ⟨h1, h2⟩
  | cons i rest ih =>
    intro m h1 h2
    have h := dedupStep_inv i h1 h2
    exact ih (dedupStep m i) h.1 h.2

theorem values_names_eq_keys {m : List (String × Item)}
    (h : ∀ kv ∈ m, nameOf kv.2 = kv.1) :
    (mapValues m).map nameOf = mapKeys m := by
  induction m with
  | nil => rfl
  | cons p m ih =>
    have hp := h p (List.mem_cons_self _ _)
    have ht : ∀ kv ∈ m, nameOf kv.2 = kv.1 := fun kv hkv =>
      h kv (List.mem_cons_of_mem _ hkv)
    show nameOf p.2 :: (mapValues m).map nameOf = p.1 :: mapKeys m
    rw [hp, ih ht]

theorem dedup_names_nodup (l : List Item) :
    ((deduplicateGroups l).map nameOf).Nodup := by
  have h := dedupFold_inv l [] (by simp [mapKeys]) (by intro kv hkv; cases hkv)
  unfold deduplicateGroups
  rw [values_names_eq_keys h.2]
  exact h.1

/-! ## Pair behaviour of the deduplication -/

theorem dedupStep_nil (it : Item) : dedupStep [] it = [(nameOf it, it)] := by
  simp [dedupStep, mapGet, mapSet]

theorem dedup_pair_rename (n d : String) (e : Bool) (lu : Nat) (meta : VTMeta)
    (cs : List Item) (b : Item) (hp : meta.possiblePfx ≠ "") (hb : nameOf b = n) :
    deduplicateGroups [Item.vt n d e lu meta cs, b] =
      [cloneWithPfx meta.possiblePfx (Item.vt n d e lu meta cs), b] := by
  have htr : truthyPfx (Item.vt n d e lu meta cs) = true := by
    simp [truthyPfx, hp]
  have hcn : nameOf (cloneWithPfx meta.possiblePfx (Item.vt n d e lu meta cs)) ≠ n := by
    rw [nameOf_cloneVt]
    exact clone_name_ne_self hp n
  have hmg : mapGet [(n, Item.vt n d e lu meta cs)] n =
      some (Item.vt n d e lu meta cs) := by simp [mapGet]
  show mapValues (dedupStep (dedupStep [] (Item.vt n d e lu meta cs)) b) = _
  rw [dedupStep_nil]
  show mapValues (dedupStep [(n, Item.vt n d e lu meta cs)] b) = _
  unfold dedupStep
  rw [hb, hmg]
  simp only [htr, if_pos]
  rw [nameOf_cloneVt] at hcn
  simp [mapDelete, mapSet, prefixOf, nameOf, cloneWithPfx, hcn, mapValues]

theorem dedup_pair_drop (a b : Item) (hb : nameOf b = nameOf a)
    (ha2 : truthyPfx a = false) (hb2 : truthyPfx b = false) :
    deduplicateGroups [a, b] = [a] := by
  have hmg : mapGet [(nameOf a, a)] (nameOf a) = some a := by simp [mapGet]
  show mapValues (dedupStep (dedupStep [] a) b) = [a]
  rw [dedupStep_nil]
  unfold dedupStep
  rw [hb, hmg]
  simp [ha2, hb2, mapValues]

/-- C2 (amended): for a two-item input where the first is a group with a
truthy `possiblePrefix` and the second shares its name, `deduplicateGroups`
keeps both — the kept group renamed via its prefix, the later item under the
original name, the two names distinct; and on every input the output names
are pairwise distinct.  (On longer inputs a later collision's rename can
displace one of the pair, see the counterexample.) -/
theorem claim_c2_amended :
    (∀ (n d : String) (e : Bool) (lu : Nat) (meta : VTMeta) (cs : List Item)
        (b : Item), meta.possiblePfx ≠ "" → nameOf b = n →
      deduplicateGroups [Item.vt n d e lu meta cs, b] =
          [cloneWithPfx meta.possiblePfx (Item.vt n d e lu meta cs), b] ∧
        nameOf (cloneWithPfx meta.possiblePfx (Item.vt n d e lu meta cs)) ≠
          nameOf b) ∧
    ∀ l : List Item, ((deduplicateGroups l).map nameOf).Nodup := by
  constructor
  · intro n d e lu meta cs b hp hb
    refine ⟨dedup_pair_rename n d e lu meta cs b hp hb, ?_⟩
    rw [hb, nameOf_cloneVt]
    exact clone_name_ne_self hp n
  · exact dedup_names_nodup

/-- Witness for C2 (amended) at a concrete pair and a concrete longer list. -/
theorem claim_c2_amended_witness :
    (deduplicateGroups [wVt "activate_g" "p_", wLeaf "activate_g"] =
        [cloneWithPfx "p_" (wVt "activate_g" "p_"), wLeaf "activate_g"] ∧
      nameOf (cloneWithPfx "p_" (wVt "activate_g" "p_")) ≠
        nameOf (wLeaf "activate_g")) ∧
    ((deduplicateGroups c2cex).map nameOf).Nodup := by
  constructor
  · exact claim_c2_amended.1 "activate_g" "vdesc" false 0 ⟨none, [], "p_", false⟩
      [] (wLeaf "activate_g") (by decide) rfl
  · exact claim_c2_amended.2 c2cex

/-- C2 (counterexample): in `c2cex` the pair
(`wVt "activate_p_x" "q_"`, `wLeaf "activate_p_x"`) collides with the kept
group carrying a truthy prefix, yet the later item `wLeaf "activate_p_x"` is
not in the final output — the rename of the later `"activate_x"` collision
lands on its key and displaces it. -/
theorem claim_c2_counterexample :
    (deduplicateGroups c2cex).map nameOf =
        ["activate_q_p_x", "activate_p_x", "activate_x"] ∧
    (deduplicateGroups c2cex).map isVt = [true, true, false] ∧
    ∀ i ∈ deduplicateGroups c2cex, i ≠ wLeaf "activate_p_x" := by
  refine ⟨rfl, rfl, ?_⟩
  intro i hi
  have he : deduplicateGroups c2cex =
      [cloneWithPfx "q_" (wVt "activate_p_x" "q_"),
       cloneWithPfx "p_" (wVt "activate_x" "p_"),
       wLeaf "activate_x"] := rfl
  rw [he] at hi
  simp only [List.mem_cons, List.not_mem_nil, or_false] at hi
  rcases hi with hi | hi | hi
  all_goals subst hi
  · simp [cloneWithPfx, wVt, wLeaf, mkBuiltin]
  · simp [cloneWithPfx, wVt, wLeaf, mkBuiltin]
  · simp [wLeaf, mkBuiltin]

/-- C9 (amended): when a new item collides with the kept item and neither is
a group with a truthy prefix, the new item is silently discarded: on the
two-item input the output is exactly the first item and is strictly shorter
than the input.  (The kept first occurrence can still be displaced later by
another collision's rename, see the counterexample.) -/
theorem claim_c9_amended :
    ∀ a b : Item, nameOf b = nameOf a → truthyPfx a = false →
      truthyPfx b = false →
      deduplicateGroups [a, b] = [a] ∧
        (deduplicateGroups [a, b]).length < ([a, b] : List Item).length := by
  intro a b h1 h2 h3
  refine ⟨dedup_pair_drop a b h1 h2 h3, ?_⟩
  rw [dedup_pair_drop a b h1 h2 h3]
  simp

/-- Witness for C9 (amended) at two equal-named leaves. -/
theorem claim_c9_amended_witness :
    deduplicateGroups [wLeaf "a", wLeaf "a"] = [wLeaf "a"] ∧
      (deduplicateGroups [wLeaf "a", wLeaf "a"]).length <
        ([wLeaf "a", wLeaf "a"] : List Item).length :=
  claim_c9_amended (wLeaf "a") (wLeaf "a") rfl rfl rfl

/-- C9 (counterexample): in `c9cex` the two leading `"activate_p_x"` leaves
collide without prefixes; the new one is discarded, but the output does not
keep the first occurrence either — a later collision's rename overwrites it,
so only 2 of the 4 items survive and neither is the first leaf. -/
theorem claim_c9_counterexample :
    (deduplicateGroups c9cex).map nameOf = ["activate_p_x", "activate_x"] ∧
    (deduplicateGroups c9cex).map isVt = [true, false] ∧
    ∀ i ∈ deduplicateGroups c9cex, i ≠ wLeaf "activate_p_x" := by
  refine ⟨rfl, rfl, ?_⟩
  intro i hi
  have he : deduplicateGroups c9cex =
      [cloneWithPfx "p_" (wVt "activate_x" "p_"), wLeaf "activate_x"] := rfl
  rw [he] at hi
  simp only [List.mem_cons, List.not_mem_nil, or_false] at hi
  rcases hi with hi | hi
  all_goals subst hi
  · simp [cloneWithPfx, wVt, wLeaf, mkBuiltin]
  · simp [wLeaf, mkBuiltin]

/-! ## The budget-driven pass agrees with its specification wording (C7) -/

theorem budgetSpecLoop_stop {hard eu : Nat} {c : List Item} {count : Int}
    (h : count > (eu : Int)) (l : List Nat) :
    budgetExpandSpecLoop hard eu c count l = c := by
  cases l with
  | nil => rfl
  | cons i rest => simp [budgetExpandSpecLoop, h]

theorem expansionLoop_eq_spec (hard eu : Nat) (l : List Nat) :
    ∀ (c : List Item) (count : Int), count ≤ (eu : Int) →
      expansionLoop hard (some eu) c count l =
        budgetExpandSpecLoop hard eu c count l := by
  induction l with
  | nil => intro c count _; rfl
  | cons i rest ih =>
    intro c count h
    have hne : ¬ count > (eu : Int) := not_lt.mpr h
    by_cases h1 : count - 1 + ((contentsLenAt c i : Nat) : Int) > (hard : Int)
    · simp [expansionLoop, budgetExpandSpecLoop, h1, hne]
    · by_cases h2 : count - 1 + ((contentsLenAt c i : Nat) : Int) > (eu : Int)
      · simp [expansionLoop, budgetExpandSpecLoop, h1, h2, hne,
          budgetSpecLoop_stop h2]
      · simp [expansionLoop, budgetExpandSpecLoop, h1, h2, hne,
          ih (expandAt c i) _ (not_lt.mp h2)]

/-- C7: `_reExpandToolsToHitBudget` behaves exactly as specified — it skips
when the visible count already exceeds `EXPAND_UNTIL_COUNT`, otherwise
expands the unexpanded top-level groups in ascending order of child count,
stopping as soon as the count exceeds `EXPAND_UNTIL_COUNT` or the next
expansion would push it over `HARD_TOOL_LIMIT`, recomputing the count after
each expansion as the previous count minus one plus the expanded group's
child count. -/
theorem claim_c7_budget_expansion (hard eu : Nat) (contents : List Item) :
    reExpandToolsToHitBudget hard eu contents =
      budgetExpansionAsSpecified hard eu contents := by
  unfold reExpandToolsToHitBudget budgetExpansionAsSpecified
  by_cases h : ((visibleCountList contents : Nat) : Int) > (eu : Int)
  · simp [h]
  · simp only [h, if_neg, if_false]
    exact expansionLoop_eq_spec hard eu _ contents _ (not_lt.mp h)

/-! ## What the expansion loop can touch (C10) -/

theorem expandItem_idem (x : Item) : expandItem (expandItem x) = expandItem x := by
  cases x <;> rfl

theorem option_map_expand_idem (o : Option Item) :
    (o.map expandItem).map expandItem = o.map expandItem := by
  cases o <;> simp [expandItem_idem]

theorem expandAt_get (c : List Item) : ∀ (i j : Nat),
    (expandAt c i).get? j =
      if i = j then (c.get? j).map expandItem else c.get? j := by
  induction c with
  | nil => intro i j; simp [expandAt]
  | cons x xs ih =>
    intro i j
    cases i with
    | zero =>
      cases j with
      | zero => simp [expandAt]
      | succ j => simp [expandAt]
    | succ i =>
      cases j with
      | zero => simp [expandAt]
      | succ j =>
        show (expandAt xs i).get? j = _
        rw [ih i j]
        by_cases h : i = j
        · subst h; simp
        · simp [h]

theorem foldl_expandAt_get (sel : List Nat) : ∀ (c : List Item) (j : Nat),
    (sel.foldl expandAt c).get? j = c.get? j ∨
      (j ∈ sel ∧
        (sel.foldl expandAt c).get? j = (c.get? j).map expandItem) := by
  induction sel with
  | nil => intro c j; exact Or.inl rfl
  | cons i rest ih =>
    intro c j
    have hstep : (i :: rest).foldl expandAt c = rest.foldl expandAt (expandAt c i) :=
      rfl
    rcases ih (expandAt c i) j with h | ⟨hj, h⟩
    · rw [hstep, h, expandAt_get]
      by_cases hij : i = j
      · subst hij
        rw [if_pos rfl]
        exact Or.inr ⟨List.mem_cons_self _ _, rfl⟩
      · rw [if_neg hij]
        exact Or.inl rfl
    · rw [hstep, h, expandAt_get]
      by_cases hij : i = j
      · subst hij
        rw [if_pos rfl]
        exact Or.inr ⟨List.mem_cons_self _ _, option_map_expand_idem _⟩
      · rw [if_neg hij]
        exact Or.inr ⟨List.mem_cons_of_mem _ hj, rfl⟩

theorem expansionLoop_sub (hard : Nat) (euStop : Option Nat) (cands : List Nat) :
    ∀ (c : List Item) (count : Int), ∃ sel : List Nat, sel ⊆ cands ∧
      expansionLoop hard euStop c count cands = sel.foldl expandAt c := by
  induction cands with
  | nil => intro c count; exact ⟨[], by simp, rfl⟩
  | cons i rest ih =>
    intro c count
    by_cases h1 : count - 1 + ((contentsLenAt c i : Nat) : Int) > (hard : Int)
    · refine ⟨[], by simp, ?_⟩
      simp [expansionLoop, h1]
    · cases euStop with
      | none =>
        obtain ⟨sel, hsub, heq⟩ :=
          ih (expandAt c i) (count - 1 + (contentsLenAt c i : Nat))
        refine ⟨i :: sel, ?_, ?_⟩
        · exact List.cons_subset_cons i hsub
        · simp only [expansionLoop, h1, if_neg, if_false]
          exact heq
      | some eu =>
        by_cases h2 : count - 1 + ((contentsLenAt c i : Nat) : Int) > (eu : Int)
        · refine ⟨[i], ?_, ?_⟩
          · intro a ha
            simp only [List.mem_singleton] at ha
            exact ha ▸ List.mem_cons_self _ _
          · simp [expansionLoop, h1, h2]
        · obtain ⟨sel, hsub, heq⟩ :=
            ih (expandAt c i) (count - 1 + (contentsLenAt c i : Nat))
          refine ⟨i :: sel, List.cons_subset_cons i hsub, ?_⟩
          simp only [expansionLoop, h1, h2, if_neg, if_false]
          exact heq

theorem insertLE_perm {α : Type} (le : α → α → Bool) (x : α) (l : List α) :
    (insertLE le x l).Perm (x :: l) := by
  induction l with
  | nil => exact List.Perm.refl _
  | cons y ys ih =>
    unfold insertLE
    by_cases h : le y x = true
    · simp only [h, if_pos]
      exact (ih.cons y).trans (List.Perm.swap x y ys)
    · simp only [h, if_neg, if_false]
      exact List.Perm.refl _

theorem foldl_insertLE_perm {α : Type} (le : α → α → Bool) (l : List α) :
    ∀ acc : List α,
      (l.foldl (fun a x => insertLE le x a) acc).Perm (acc ++ l) := by
  induction l with
  | nil => intro acc; simp
  | cons x xs ih =>
    intro acc
    refine (ih (insertLE le x acc)).trans ?_
    refine (List.Perm.append_right xs (insertLE_perm le x acc)).trans ?_
    exact List.perm_middle.symm

theorem stableSortBy_perm {α : Type} (le : α → α → Bool) (l : List α) :
    (stableSortBy le l).Perm l := by
  simpa using foldl_insertLE_perm le l []

theorem withIdx_get {α : Type} (l : List α) : ∀ (s : Nat) (p : Nat × α),
    p ∈ withIdx s l → s ≤ p.1 ∧ l.get? (p.1 - s) = some p.2 := by
  induction l with
  | nil => intro s p h; simp [withIdx] at h
  | cons x xs ih =>
    intro s p h
    simp only [withIdx, List.mem_cons] at h
    rcases h with h | h
    · subst h
      exact ⟨le_refl s, by simp⟩
    · obtain ⟨h1, h2⟩ := ih (s + 1) p h
      refine ⟨by omega, ?_⟩
      have hs : p.1 - s = (p.1 - (s + 1)) + 1 := by omega
      rw [hs]
      simpa using h2

/-- C10: the query-driven pass only flips the expansion flags of top-level
items; an item of the result differs from the input only when the input item
at the same position is a collapsed `VirtualTool` one of whose direct
children has a predicted name, and then only its flags change — its children
(and hence everything nested deeper) are untouched, so a predicted tool
nested deeper than one level never causes an expansion and nested sub-groups
are never expanded. -/
theorem claim_c10_predicted_direct_children (hard : Nat)
    (predicted : List ToolInfo) (contents : List Item) (j : Nat) :
    (expandGroupsWithPredictedTools hard predicted contents).get? j =
        contents.get? j ∨
      ∃ n d lu meta cs, contents.get? j = some (Item.vt n d false lu meta cs) ∧
        (cs.any fun c => (predicted.map (·.name)).contains (nameOf c)) = true ∧
        (expandGroupsWithPredictedTools hard predicted contents).get? j =
          some (Item.vt n d true lu { meta with preExpanded := true } cs) := by
  unfold expandGroupsWithPredictedTools
  by_cases hp : predicted.isEmpty = true
  · rw [if_pos hp]
    exact Or.inl rfl
  · rw [if_neg hp]
    obtain ⟨sel, hsub, heq⟩ := expansionLoop_sub hard none _ contents _
    rw [heq]
    rcases foldl_expandAt_get sel contents j with h | ⟨hj, h⟩
    · exact Or.inl h
    · have hj2 := hsub hj
      obtain ⟨pair, hpair, hfst⟩ := List.mem_map.mp hj2
      have hpair2 : pair ∈ (withIdx 0 contents).filter
          (fun p => isPredictedCandidate (predicted.map (·.name)) p.2) :=
        (stableSortBy_perm _ _).mem_iff.mp hpair
      have hpair3 := List.mem_filter.mp hpair2
      have hget := (withIdx_get contents 0 pair hpair3.1).2
      rw [Nat.sub_zero, hfst] at hget
      cases hv : pair.2 with
      | tool t =>
        rw [hv] at hpair3
        simp [isPredictedCandidate] at hpair3
      | vt n d e lu meta cs =>
        rw [hv] at hpair3 hget
        have hcand := hpair3.2
        simp only [isPredictedCandidate, Bool.and_eq_true, Bool.not_eq_eq_eq_not,
          Bool.not_true] at hcand
        refine Or.inr ⟨n, d, lu, meta, cs, ?_, ?_, ?_⟩
        · rw [hget]
          congr 1
          cases e with
          | false => rfl
          | true => cases hcand.1
        · exact hcand.2
        · rw [h, hget]
          cases e with
          | false => rfl
          | true => cases hcand.1

/-! ## Counting the visible items through the expansion passes (C1) -/

theorem visibleCountList_of_leaves {cs : List Item} (h : cs.all leafItem = true) :
    visibleCountList cs = cs.length := by
  induction cs with
  | nil => rfl
  | cons x xs ih =>
    rw [List.all_cons, Bool.and_eq_true] at h
    cases x with
    | tool t =>
      show 1 + visibleCountList xs = xs.length + 1
      rw [ih h.2]
      omega
    | vt n d e lu meta cs => simp [leafItem] at h

theorem twoLevel_expandItem {x : Item} (h : twoLevelItem x = true) :
    twoLevelItem (expandItem x) = true := by
  cases x with
  | tool t => rfl
  | vt n d e lu meta cs => simpa [twoLevelItem, expandItem] using h

theorem twoLevel_expandAt {c : List Item} (h : twoLevelList c = true) :
    ∀ i : Nat, twoLevelList (expandAt c i) = true := by
  induction c with
  | nil => intro i; simp [expandAt, twoLevelList]
  | cons x xs ih =>
    rw [twoLevelList, List.all_cons, Bool.and_eq_true] at h
    intro i
    cases i with
    | zero =>
      show twoLevelList (expandItem x :: xs) = true
      rw [twoLevelList, List.all_cons, Bool.and_eq_true]
      exact ⟨twoLevel_expandItem h.1, h.2⟩
    | succ i =>
      show twoLevelList (x :: expandAt xs i) = true
      rw [twoLevelList, List.all_cons, Bool.and_eq_true]
      exact ⟨h.1, ih h.2 i⟩

theorem visibleCount_expandAt {c : List Item} (h2 : twoLevelList c = true) :
    ∀ {i : Nat} {n d : String} {lu : Nat} {meta : VTMeta} {cs : List Item},
      c.get? i = some (Item.vt n d false lu meta cs) →
      (visibleCountList (expandAt c i) : Int) =
        (visibleCountList c : Int) - 1 + cs.length := by
  induction c with
  | nil => intro i n d lu meta cs hget; simp at hget
  | cons x xs ih =>
    rw [twoLevelList, List.all_cons, Bool.and_eq_true] at h2
    intro i n d lu meta cs hget
    cases i with
    | zero =>
      have hx : x = Item.vt n d false lu meta cs := by
        simpa using hget
      subst hx
      have hcs : cs.all leafItem = true := by
        simpa [twoLevelItem] using h2.1
      show ((visibleCountList (expandItem (Item.vt n d false lu meta cs) :: xs) : Nat) : Int) = _
      have e1 : visibleCountList (expandItem (Item.vt n d false lu meta cs) :: xs) =
          cs.length + visibleCountList xs := by
        show visibleCountItem (Item.vt n d true lu
          { meta with preExpanded := true } cs) + visibleCountList xs = _
        rw [show visibleCountItem (Item.vt n d true lu
          { meta with preExpanded := true } cs) = visibleCountList cs from rfl]
        rw [visibleCountList_of_leaves hcs]
      have e2 : visibleCountList (Item.vt n d false lu meta cs :: xs) =
          1 + visibleCountList xs := rfl
      rw [e1, e2]
      push_cast
      omega
    | succ i =>
      have hget2 : xs.get? i = some (Item.vt n d false lu meta cs) := by
        simpa using hget
      have hrec := ih h2.2 hget2
      show ((visibleCountList (x :: expandAt xs i) : Nat) : Int) = _
      have e1 : visibleCountList (x :: expandAt xs i) =
          visibleCountItem x + visibleCountList (expandAt xs i) := rfl
      have e2 : visibleCountList (x :: xs) =
          visibleCountItem x + visibleCountList xs := rfl
      rw [e1, e2]
      push_cast at hrec ⊢
      omega

theorem expansionLoop_count_le (hard : Nat) (euStop : Option Nat) :
    ∀ (cands : List Nat) (c : List Item) (count : Int),
      twoLevelList c = true → count = ((visibleCountList c : Nat) : Int) →
      cands.Nodup →
      (∀ i ∈ cands, ∃ n d lu meta cs,
        c.get? i = some (Item.vt n d false lu meta cs)) →
      ((visibleCountList (expansionLoop hard euStop c count cands) : Int) ≤
          max count (hard : Int)) ∧
        twoLevelList (expansionLoop hard euStop c count cands) = true := by
  intro cands
  induction cands with
  | nil =>
    intro c count h2 hc _ _
    exact ⟨by rw [hc]; exact le_max_left _ _, h2⟩
  | cons i rest ih =>
    intro c count h2 hc hnd hcand
    obtain ⟨n, d, lu, meta, cs, hget⟩ := hcand i (List.mem_cons_self _ _)
    have hlen : contentsLenAt c i = cs.length := by
      rw [contentsLenAt, hget]
      rfl
    have hnext : ((visibleCountList (expandAt c i) : Nat) : Int) =
        count - 1 + ((contentsLenAt c i : Nat) : Int) := by
      rw [hc, hlen]
      have := visibleCount_expandAt h2 hget
      push_cast at this
      omega
    have h2e := twoLevel_expandAt h2 i
    have hnd2 : rest.Nodup := (List.nodup_cons.mp hnd).2
    have hni : i ∉ rest := (List.nodup_cons.mp hnd).1
    have hcand2 : ∀ j ∈ rest, ∃ n d lu meta cs,
        (expandAt c i).get? j = some (Item.vt n d false lu meta cs) := by
      intro j hj
      obtain ⟨n1, d1, lu1, meta1, cs1, hg1⟩ := hcand j (List.mem_cons_of_mem _ hj)
      have hij : i ≠ j := fun he => hni (he ▸ hj)
      rw [expandAt_get, if_neg hij]
      exact ⟨n1, d1, lu1, meta1, cs1, hg1⟩
    by_cases h1 : count - 1 + ((contentsLenAt c i : Nat) : Int) > (hard : Int)
    · have hres : expansionLoop hard euStop c count (i :: rest) = c := by
        cases euStop <;> simp [expansionLoop, h1]
      rw [hres]
      exact ⟨by rw [hc]; exact le_max_left _ _, h2⟩
    · have hle : count - 1 + ((contentsLenAt c i : Nat) : Int) ≤ (hard : Int) :=
        not_lt.mp h1
      cases euStop with
      | none =>
        have hres : expansionLoop hard none c count (i :: rest) =
            expansionLoop hard none (expandAt c i)
              (count - 1 + ((contentsLenAt c i : Nat) : Int)) rest := by
          simp [expansionLoop, h1]
        rw [hres]
        have hrec := ih (expandAt c i) _ h2e hnext.symm hnd2 hcand2
        refine ⟨le_trans hrec.1 ?_, hrec.2⟩
        rw [max_eq_right hle]
        exact le_max_right _ _
      | some eu =>
        by_cases h3 : count - 1 + ((contentsLenAt c i : Nat) : Int) > (eu : Int)
        · have hres : expansionLoop hard (some eu) c count (i :: rest) =
              expandAt c i := by
            simp [expansionLoop, h1, h3]
          rw [hres]
          refine ⟨?_, h2e⟩
          rw [hnext]
          exact le_trans hle (le_max_right _ _)
        · have hres : expansionLoop hard (some eu) c count (i :: rest) =
              expansionLoop hard (some eu) (expandAt c i)
                (count - 1 + ((contentsLenAt c i : Nat) : Int)) rest := by
            simp [expansionLoop, h1, h3]
          rw [hres]
          have hrec := ih (expandAt c i) _ h2e hnext.symm hnd2 hcand2
          refine ⟨le_trans hrec.1 ?_, hrec.2⟩
          rw [max_eq_right hle]
          exact le_max_right _ _

theorem withIdx_fst_nodup {α : Type} (l : List α) :
    ∀ s : Nat, ((withIdx s l).map (·.1)).Nodup := by
  induction l with
  | nil => intro s; simp [withIdx]
  | cons x xs ih =>
    intro s
    show (s :: (withIdx (s + 1) xs).map (·.1)).Nodup
    rw [List.nodup_cons]
    refine ⟨?_, ih (s + 1)⟩
    intro hmem
    obtain ⟨p, hp, hfst⟩ := List.mem_map.mp hmem
    have h1 := (withIdx_get xs (s + 1) p hp).1
    omega

theorem pass_cands_ok (contents : List Item) (f : Nat × Item → Bool)
    (le : Nat × Item → Nat × Item → Bool)
    (hf : ∀ p : Nat × Item, f p = true → isUnexpandedVt p.2 = true) :
    ((stableSortBy le ((withIdx 0 contents).filter f)).map (·.1)).Nodup ∧
      ∀ j ∈ (stableSortBy le ((withIdx 0 contents).filter f)).map (·.1),
        ∃ n d lu meta cs,
          contents.get? j = some (Item.vt n d false lu meta cs) := by
  have hperm : (stableSortBy le ((withIdx 0 contents).filter f)).Perm
      ((withIdx 0 contents).filter f) := stableSortBy_perm _ _
  constructor
  · have h1 : (((withIdx 0 contents).filter f).map (·.1)).Nodup := by
      have hsub : ((withIdx 0 contents).filter f).Sublist (withIdx 0 contents) :=
        List.filter_sublist _
      exact (hsub.map (·.1)).nodup (withIdx_fst_nodup contents 0)
    exact ((hperm.map (·.1)).nodup_iff).mpr h1
  · intro j hj
    obtain ⟨p, hp, hfst⟩ := List.mem_map.mp hj
    have hp2 : p ∈ (withIdx 0 contents).filter f := hperm.mem_iff.mp hp
    have hp3 := List.mem_filter.mp hp2
    have hget := (withIdx_get contents 0 p hp3.1).2
    rw [Nat.sub_zero, hfst] at hget
    have hu := hf p hp3.2
    cases hv : p.2 with
    | tool t => rw [hv] at hu; simp [isUnexpandedVt] at hu
    | vt n d e lu meta cs =>
      rw [hv] at hu hget
      have he : e = false := by simpa [isUnexpandedVt] using hu
      subst he
      exact ⟨n, d, lu, meta, cs, hget⟩

theorem reExpand_bound (hard eu : Nat) (contents : List Item)
    (h2 : twoLevelList contents = true) :
    ((visibleCountList (reExpandToolsToHitBudget hard eu contents) : Nat) : Int) ≤
        max ((visibleCountList contents : Nat) : Int) (hard : Int) ∧
      twoLevelList (reExpandToolsToHitBudget hard eu contents) = true := by
  unfold reExpandToolsToHitBudget
  by_cases h : ((visibleCountList contents : Nat) : Int) > (eu : Int)
  · rw [if_pos h]
    exact ⟨le_max_left _ _, h2⟩
  · rw [if_neg h]
    have hok := pass_cands_ok contents (fun p => isUnexpandedVt p.2)
      (fun a b => contentsLenOf a.2 ≤ contentsLenOf b.2) (fun p hp => hp)
    exact expansionLoop_count_le hard (some eu) _ contents _ h2 rfl hok.1 hok.2

theorem isPredictedCandidate_unexpanded (names : List String) (p : Item)
    (h : isPredictedCandidate names p = true) : isUnexpandedVt p = true := by
  cases p with
  | tool t => simp [isPredictedCandidate] at h
  | vt n d e lu meta cs =>
    rw [isPredictedCandidate, Bool.and_eq_true] at h
    simpa [isUnexpandedVt] using h.1

theorem predicted_bound (hard : Nat) (predicted : List ToolInfo)
    (contents : List Item) (h2 : twoLevelList contents = true) :
    ((visibleCountList
        (expandGroupsWithPredictedTools hard predicted contents) : Nat) : Int) ≤
        max ((visibleCountList contents : Nat) : Int) (hard : Int) ∧
      twoLevelList (expandGroupsWithPredictedTools hard predicted contents) = true := by
  unfold expandGroupsWithPredictedTools
  by_cases hp : predicted.isEmpty = true
  · rw [if_pos hp]
    exact ⟨le_max_left _ _, h2⟩
  · rw [if_neg hp]
    have hok := pass_cands_ok contents
      (fun p => isPredictedCandidate (predicted.map (·.name)) p.2)
      (fun a b => minPriority (predicted.map (·.name)) a.2 ≤
        minPriority (predicted.map (·.name)) b.2)
      (fun p hp2 => isPredictedCandidate_unexpanded _ _ hp2)
    exact expansionLoop_count_le hard none _ contents _ h2 rfl hok.1 hok.2

/-! ## The assembled tree is two-level -/

theorem twoLevel_mapTool (l : List ToolInfo) :
    twoLevelList (l.map Item.tool) = true := by
  rw [twoLevelList, List.all_eq_true]
  intro x hx
  obtain ⟨t, _, rfl⟩ := List.mem_map.mp hx
  rfl

theorem gen_shape (cfg : Config) (oracle : Oracle) (key : String)
    (ts : List ToolInfo) :
    ∀ x ∈ generateGroupsFromToolset cfg oracle key ts,
      (∃ t, x = Item.tool t) ∨
        ∃ v virts, x = mkVtItem key
          (possiblePrefixFromSource ((ts.head?).map (·.source))) virts v := by
  intro x hx
  unfold generateGroupsFromToolset at hx
  split at hx
  · obtain ⟨t, _, rfl⟩ := List.mem_map.mp hx
    exact Or.inl ⟨t, rfl⟩
  · split at hx
    · obtain ⟨t, _, rfl⟩ := List.mem_map.mp hx
      exact Or.inl ⟨t, rfl⟩
    · rw [List.mem_append] at hx
      rcases hx with hx | hx
      · obtain ⟨v, _, rfl⟩ := List.mem_map.mp hx
        exact Or.inr ⟨v, _, rfl⟩
      · obtain ⟨t, _, rfl⟩ := List.mem_map.mp hx
        exact Or.inl ⟨t, rfl⟩

theorem twoLevel_mkVtItem (key pfx : String) (virts : List ToolCategory)
    (v : ToolCategory) : twoLevelItem (mkVtItem key pfx virts v) = true := by
  show (v.tools.map Item.tool).all leafItem = true
  rw [List.all_eq_true]
  intro y hy
  obtain ⟨t, _, rfl⟩ := List.mem_map.mp hy
  rfl

theorem twoLevel_flatten (cfg : Config) (oracle : Oracle)
    (tools : List ToolInfo) :
    twoLevelList (flattenGrouped cfg oracle tools) = true := by
  rw [twoLevelList, List.all_eq_true]
  intro x hx
  unfold flattenGrouped at hx
  rw [List.mem_flatten] at hx
  obtain ⟨sub, hsub, hxsub⟩ := hx
  obtain ⟨kv, _, rfl⟩ := List.mem_map.mp hsub
  by_cases hb : kv.1 = BUILT_IN_GROUP
  · rw [if_pos hb] at hxsub
    obtain ⟨t, _, rfl⟩ := List.mem_map.mp hxsub
    rfl
  · rw [if_neg hb] at hxsub
    rcases gen_shape cfg oracle kv.1 kv.2 x hxsub with ⟨t, rfl⟩ | ⟨v, virts, rfl⟩
    · rfl
    · exact twoLevel_mkVtItem _ _ _ _

theorem twoLevel_clone (p : String) (x : Item) :
    twoLevelItem (cloneWithPfx p x) = twoLevelItem x := by
  cases x <;> rfl

theorem twoLevel_dedup {l : List Item} (h : twoLevelList l = true) :
    twoLevelList (deduplicateGroups l) = true := by
  rw [twoLevelList, List.all_eq_true] at h
  have hfold : ∀ kv ∈ l.foldl dedupStep [], twoLevelItem kv.2 = true := by
    have hgen : ∀ (rest : List Item) (m : List (String × Item)),
        (∀ x ∈ rest, twoLevelItem x = true) →
        (∀ kv ∈ m, twoLevelItem kv.2 = true) →
        ∀ kv ∈ rest.foldl dedupStep m, twoLevelItem kv.2 = true := by
      intro rest
      induction rest with
      | nil => intro m _ hm; exact hm
      | cons i tail ih =>
        intro m hrest hm
        refine ih (dedupStep m i) (fun x hx => hrest x (List.mem_cons_of_mem _ hx)) ?_
        have hi : twoLevelItem i = true := hrest i (List.mem_cons_self _ _)
        unfold dedupStep
        cases hg : mapGet m (nameOf i) with
        | none =>
          intro kv hkv
          rcases mem_mapSet hkv with h | h
          · rw [h]; exact hi
          · exact hm kv h
        | some saw =>
          have hsaw : twoLevelItem saw = true := hm _ (mapGet_mem hg)
          by_cases ht : truthyPfx saw = true
          · simp only [ht, if_pos]
            intro kv hkv
            rcases mem_mapSet hkv with h | h
            · rw [h]; exact hi
            · rcases mem_mapSet h with h | h
              · rw [h, twoLevel_clone]; exact hsaw
              · exact hm kv (mem_mapDelete h)
          · simp only [ht, if_neg, if_false, Bool.false_eq_true]
            by_cases ht2 : truthyPfx i = true
            · simp only [ht2, if_pos]
              intro kv hkv
              rcases mem_mapSet hkv with h | h
              · rw [h, twoLevel_clone]; exact hi
              · exact hm kv h
            · simp only [ht2, if_neg, if_false, Bool.false_eq_true]
              exact hm
    exact hgen l [] h (by intro kv hkv; cases hkv)
  rw [twoLevelList, List.all_eq_true]
  intro x hx
  obtain ⟨kv, hkv, rfl⟩ := List.mem_map.mp hx
  exact hfold kv hkv

theorem carryOverList_leaves {pm : List (String × PrevState)} :
    ∀ {cs : List Item}, cs.all leafItem = true → carryOverList pm cs = cs := by
  intro cs
  induction cs with
  | nil => intro _; rfl
  | cons x xs ih =>
    intro h
    rw [List.all_cons, Bool.and_eq_true] at h
    cases x with
    | tool t =>
      show Item.tool t :: carryOverList pm xs = _
      rw [ih h.2]
    | vt n d e lu meta cs2 => simp [leafItem] at h

theorem twoLevel_carryOver {pm : List (String × PrevState)} :
    ∀ {l : List Item}, twoLevelList l = true →
      twoLevelList (carryOverList pm l) = true := by
  intro l
  induction l with
  | nil => intro _; rfl
  | cons x xs ih =>
    intro h
    rw [twoLevelList, List.all_cons, Bool.and_eq_true] at h
    show twoLevelList (carryOverItem pm x :: carryOverList pm xs) = true
    rw [twoLevelList, List.all_cons, Bool.and_eq_true]
    refine ⟨?_, ih h.2⟩
    cases x with
    | tool t => rfl
    | vt n d e lu meta cs =>
      have hcs : cs.all leafItem = true := by simpa [twoLevelItem] using h.1
      show twoLevelItem (carryOverItem pm (Item.vt n d e lu meta cs)) = true
      unfold carryOverItem
      cases mapGet pm n with
      | none =>
        show (carryOverList pm cs).all leafItem = true
        rw [carryOverList_leaves hcs]
        exact hcs
      | some ps =>
        show (carryOverList pm cs).all leafItem = true
        rw [carryOverList_leaves hcs]
        exact hcs

theorem twoLevel_assemble (cfg : Config) (oracle : Oracle) (prev : List Item)
    (tools : List ToolInfo) :
    twoLevelList (assembleContents cfg oracle prev tools) = true := by
  unfold assembleContents
  split
  · exact twoLevel_mapTool tools
  · exact twoLevel_carryOver (twoLevel_dedup (twoLevel_flatten cfg oracle tools))

/-- C1 (amended): the visible count after `addGroups` never exceeds the
maximum of the hard limit and the visible count of the assembled tree
(after deduplication and state carry-over, before the expansion passes):
the two expansion passes never push a compliant count above
`HARD_TOOL_LIMIT`.  The original claim — a bound by `HARD_TOOL_LIMIT`
alone for every input — fails because nothing bounds the assembled tree
itself (see the counterexample with builtin passthrough). -/
theorem claim_c1_amended_bound (cfg : Config) (oracle : Oracle)
    (rankingFlag : Bool) (predicted : List ToolInfo) (prev : List Item)
    (tools : List ToolInfo) :
    visibleCountList (addGroups cfg oracle rankingFlag predicted prev tools) ≤
      max (visibleCountList (assembleContents cfg oracle prev tools))
        cfg.hardToolLimit := by
  have hInt : ((visibleCountList
      (addGroups cfg oracle rankingFlag predicted prev tools) : Nat) : Int) ≤
      max ((visibleCountList (assembleContents cfg oracle prev tools) : Nat) : Int)
        (cfg.hardToolLimit : Int) := by
    unfold addGroups
    by_cases hshort : tools.length < cfg.startGroupingAfterToolCount
    · rw [if_pos hshort]
      have : assembleContents cfg oracle prev tools = tools.map Item.tool := by
        unfold assembleContents
        rw [if_pos hshort]
      rw [this]
      exact le_max_left _ _
    · rw [if_neg hshort]
      have h2A := twoLevel_assemble cfg oracle prev tools
      cases rankingFlag with
      | false =>
        rw [if_neg (by simp)]
        exact (reExpand_bound _ _ _ h2A).1
      | true =>
        rw [if_pos rfl]
        have hB := predicted_bound cfg.hardToolLimit predicted _ h2A
        have hC := reExpand_bound cfg.hardToolLimit cfg.expandUntilCount _ hB.2
        refine le_trans hC.1 ?_
        refine max_le (le_trans hB.1 ?_) (le_max_right _ _)
        exact max_le (le_max_left _ _) (le_max_right _ _)
  have hcast : ((max (visibleCountList (assembleContents cfg oracle prev tools))
      cfg.hardToolLimit : Nat) : Int) =
      max ((visibleCountList (assembleContents cfg oracle prev tools) : Nat) : Int)
        (cfg.hardToolLimit : Int) := by
    push_cast
    rfl
  exact_mod_cast hcast ▸ hInt

/-- C1 (counterexample): with representative constants (start 2, hard limit
3) five builtin tools pass through ungrouped and the final visible count is
5, exceeding the hard limit — `addGroups` does not bound the visible count
by `HARD_TOOL_LIMIT` for every input. -/
theorem claim_c1_counterexample :
    visibleCountList (addGroups wCfg wOracleNone false [] [] wTools5) = 5 ∧
      wCfg.hardToolLimit = 3 := ⟨rfl, rfl⟩

/-! ## The retry loop treats cancellation like any failure (C5) -/

theorem categorizeWithRetries_none
    (oracleK : Nat → Except OracleError (Option (List ToolCategory)))
    (hfail : ∀ a r, oracleK a ≠ .ok (some r)) :
    ∀ fuel att : Nat, categorizeWithRetries oracleK fuel att = none := by
  intro fuel
  induction fuel with
  | zero => intro att; rfl
  | succ f ih =>
    intro att
    unfold categorizeWithRetries
    cases ho : oracleK att with
    | ok o =>
      cases o with
      | some r => exact absurd ho (hfail att r)
      | none => exact ih (att + 1)
    | error e => exact ih (att + 1)

theorem categorizationAttempts_all_fail
    (oracleK : Nat → Except OracleError (Option (List ToolCategory)))
    (hfail : ∀ a r, oracleK a ≠ .ok (some r)) :
    ∀ fuel att : Nat, categorizationAttempts oracleK fuel att = fuel := by
  intro fuel
  induction fuel with
  | zero => intro att; rfl
  | succ f ih =>
    intro att
    unfold categorizationAttempts
    cases ho : oracleK att with
    | ok o =>
      cases o with
      | some r => exact absurd ho (hfail att r)
      | none =>
        show 1 + categorizationAttempts oracleK f (att + 1) = f + 1
        rw [ih (att + 1)]
        omega
    | error e =>
      show 1 + categorizationAttempts oracleK f (att + 1) = f + 1
      rw [ih (att + 1)]
      omega

/-- C5 (amended): a cancellation error thrown by an oracle call inside the
retry loop is caught and retried like any ordinary failure — the loop makes
all `MAX_CATEGORIZATION_RETRIES` attempts, no exception escapes, and the
toolset's tools are returned individually as uncategorized. -/
theorem claim_c5_amended (cfg : Config) (oracle : Oracle) (key : String)
    (ts : List ToolInfo) (hsize : cfg.minToolsetSizeToGroup < ts.length)
    (hcancel : ∀ a, oracle key a = .error .cancelled) :
    generateGroupsFromToolset cfg oracle key ts = ts.map Item.tool ∧
      genAttempts cfg oracle key ts = cfg.maxCategorizationRetries := by
  have hfail : ∀ a r, oracle key a ≠ .ok (some r) := by
    intro a r h
    rw [hcancel a] at h
    cases h
  constructor
  · unfold generateGroupsFromToolset
    rw [if_neg (not_le.mpr hsize),
      categorizeWithRetries_none _ hfail cfg.maxCategorizationRetries 0]
  · unfold genAttempts
    rw [if_neg (not_le.mpr hsize)]
    exact categorizationAttempts_all_fail _ hfail _ 0

/-- Witness for C5 (amended): the always-cancelled oracle on a 2-tool MCP
toolset. -/
theorem claim_c5_amended_witness :
    generateGroupsFromToolset wCfg wOracleCancel "mcp_s" [wT1, wT2] =
        [wT1, wT2].map Item.tool ∧
      genAttempts wCfg wOracleCancel "mcp_s" [wT1, wT2] =
        wCfg.maxCategorizationRetries :=
  claim_c5_amended wCfg wOracleCancel "mcp_s" [wT1, wT2] (by decide)
    (fun _ => rfl)

/-- C5 (counterexample): an oracle that throws a cancellation error on every
attempt is called 3 times (`MAX_CATEGORIZATION_RETRIES` of the
configuration), i.e. it is retried rather than short-circuited, and nothing
propagates — the call returns the tools uncategorized. -/
theorem claim_c5_counterexample :
    genAttempts wCfg wOracleCancel "mcp_s" [wT1, wT2] = 3 ∧
      (3 : Nat) ≠ 1 ∧
      generateGroupsFromToolset wCfg wOracleCancel "mcp_s" [wT1, wT2] =
        [Item.tool wT1, Item.tool wT2] := ⟨rfl, by decide, rfl⟩

/-! ## The short-circuit for small tool lists (C8) -/

/-- C8: for a tool list strictly below `START_GROUPING_AFTER_TOOL_COUNT`,
`addGroups` sets `root.contents` to exactly the input list (same elements,
same order) and performs no categorization at all. -/
theorem claim_c8_short_circuit (cfg : Config) (oracle : Oracle)
    (rankingFlag : Bool) (predicted : List ToolInfo) (prev : List Item)
    (tools : List ToolInfo)
    (h : tools.length < cfg.startGroupingAfterToolCount) :
    addGroups cfg oracle rankingFlag predicted prev tools =
        tools.map Item.tool ∧
      addGroupsOracleCalls cfg oracle tools = 0 := by
  constructor
  · unfold addGroups
    rw [if_pos h]
  · unfold addGroupsOracleCalls
    rw [if_pos h]

/-- Witness for C8 at a single tool below the threshold. -/
theorem claim_c8_short_circuit_witness :
    addGroups wCfg wOracleNone false [] [] [wT1] = [Item.tool wT1] ∧
      addGroupsOracleCalls wCfg wOracleNone [wT1] = 0 :=
  claim_c8_short_circuit wCfg wOracleNone false [] [] [wT1] (by decide)

/-! ## State carry-over (C4) -/

mutual
theorem carryOverItem_fields (pm : List (String × PrevState)) (x : Item) :
    ∀ v ∈ allItems (carryOverItem pm x),
      ∀ n d e lu meta cs, v = Item.vt n d e lu meta cs →
      ∀ ps, mapGet pm n = some ps →
      e = ps.isExpanded ∧ meta.preExpanded = ps.preExpanded ∧
        lu = ps.lastUsedOnTurn := by
  cases x with
  | tool t =>
    intro v hv n d e lu meta cs hveq ps hps
    have hvt : v = Item.tool t := by
      simpa [carryOverItem, allItems] using hv
    rw [hvt] at hveq
    cases hveq
  | vt n0 d0 e0 lu0 meta0 cs0 =>
    intro v hv n d e lu meta cs hveq ps hps
    cases hm : mapGet pm n0 with
    | some ps0 =>
      have hco : carryOverItem pm (Item.vt n0 d0 e0 lu0 meta0 cs0) =
          Item.vt n0 d0 ps0.isExpanded ps0.lastUsedOnTurn
            { meta0 with preExpanded := ps0.preExpanded }
            (carryOverList pm cs0) := by
        unfold carryOverItem
        rw [hm]
      rw [hco] at hv
      have hv2 : v ∈ Item.vt n0 d0 ps0.isExpanded ps0.lastUsedOnTurn
          { meta0 with preExpanded := ps0.preExpanded }
          (carryOverList pm cs0) :: allItemsList (carryOverList pm cs0) := hv
      rcases List.mem_cons.mp hv2 with hveq2 | hvtail
      · rw [hveq] at hveq2
        injection hveq2 with h1 h2 h3 h4 h5 h6
        subst h1
        rw [hm] at hps
        have hpseq : ps0 = ps := Option.some.inj hps
        subst hpseq
        rw [h5]
        exact ⟨h3, rfl, h4⟩
      · exact carryOverList_fields pm cs0 v hvtail n d e lu meta cs hveq ps hps
    | none =>
      have hco : carryOverItem pm (Item.vt n0 d0 e0 lu0 meta0 cs0) =
          Item.vt n0 d0 e0 lu0 meta0 (carryOverList pm cs0) := by
        unfold carryOverItem
        rw [hm]
      rw [hco] at hv
      have hv2 : v ∈ Item.vt n0 d0 e0 lu0 meta0 (carryOverList pm cs0) ::
          allItemsList (carryOverList pm cs0) := hv
      rcases List.mem_cons.mp hv2 with hveq2 | hvtail
      · rw [hveq] at hveq2
        injection hveq2 with h1 h2 h3 h4 h5 h6
        subst h1
        rw [hm] at hps
        cases hps
      · exact carryOverList_fields pm cs0 v hvtail n d e lu meta cs hveq ps hps

theorem carryOverList_fields (pm : List (String × PrevState)) (l : List Item) :
    ∀ v ∈ allItemsList (carryOverList pm l),
      ∀ n d e lu meta cs, v = Item.vt n d e lu meta cs →
      ∀ ps, mapGet pm n = some ps →
      e = ps.isExpanded ∧ meta.preExpanded = ps.preExpanded ∧
        lu = ps.lastUsedOnTurn := by
  cases l with
  | nil =>
    intro v hv
    cases hv
  | cons x xs =>
    intro v hv n d e lu meta cs hveq ps hps
    have hv2 : v ∈ allItems (carryOverItem pm x) ++
        allItemsList (carryOverList pm xs) := hv
    rcases List.mem_append.mp hv2 with hv3 | hv3
    · exact carryOverItem_fields pm x v hv3 n d e lu meta cs hveq ps hps
    · exact carryOverList_fields pm xs v hv3 n d e lu meta cs hveq ps hps
end

theorem mem_allItemsList {l : List Item} {v : Item} :
    v ∈ allItemsList l ↔ ∃ x ∈ l, v ∈ allItems x := by
  induction l with
  | nil => simp [allItemsList]
  | cons x xs ih =>
    show v ∈ allItems x ++ allItemsList xs ↔ _
    rw [List.mem_append, ih]
    constructor
    · rintro (h | ⟨y, hy, hvy⟩)
      · exact ⟨x, List.mem_cons_self _ _, h⟩
      · exact ⟨y, List.mem_cons_of_mem _ hy, hvy⟩
    · rintro ⟨y, hy, hvy⟩
      rcases List.mem_cons.mp hy with rfl | hy
      · exact Or.inl hvy
      · exact Or.inr ⟨y, hy, hvy⟩

theorem allItemsList_mapTool {l : List ToolInfo} {v : Item}
    (hv : v ∈ allItemsList (l.map Item.tool)) : ∃ t, v = Item.tool t := by
  obtain ⟨x, hx, hvx⟩ := mem_allItemsList.mp hv
  obtain ⟨t, _, rfl⟩ := List.mem_map.mp hx
  have : v = Item.tool t := by simpa [allItems] using hvx
  exact ⟨t, this⟩

theorem allItems_of_flagged {c c2 : List Item}
    (h : ∀ j, c2.get? j = c.get? j ∨ c2.get? j = (c.get? j).map expandItem) :
    ∀ v ∈ allItemsList c2, ∃ v0 ∈ allItemsList c,
      nameOf v0 = nameOf v ∧ isVt v0 = isVt v ∧
        (isExpandedOf v0 = true → isExpandedOf v = true) := by
  intro v hv
  obtain ⟨x2, hx2, hvx2⟩ := mem_allItemsList.mp hv
  obtain ⟨j, hj⟩ := List.mem_iff_get?.mp hx2
  rcases h j with h2 | h2
  · have hc : c.get? j = some x2 := by rw [← h2, hj]
    exact ⟨v, mem_allItemsList.mpr ⟨x2, List.get?_mem hc, hvx2⟩, rfl, rfl,
      fun hh => hh⟩
  · rw [hj] at h2
    cases hc : c.get? j with
    | none => rw [hc] at h2; cases h2
    | some x0 =>
      rw [hc] at h2
      have hx0 : x2 = expandItem x0 := Option.some.inj h2
      have hx0mem : x0 ∈ c := List.get?_mem hc
      cases x0 with
      | tool t =>
        rw [hx0] at hvx2
        have hveq : v = Item.tool t := by
          simpa [expandItem, allItems] using hvx2
        refine ⟨v, mem_allItemsList.mpr ⟨Item.tool t, hx0mem, ?_⟩, rfl, rfl,
          fun hh => hh⟩
        rw [hveq]
        exact List.mem_cons_self _ _
      | vt n d e lu meta cs =>
        rw [hx0] at hvx2
        have hvx2e : v ∈ Item.vt n d true lu
            { meta with preExpanded := true } cs :: allItemsList cs := hvx2
        rcases List.mem_cons.mp hvx2e with hveq | hvtail
        · refine ⟨Item.vt n d e lu meta cs,
            mem_allItemsList.mpr ⟨Item.vt n d e lu meta cs, hx0mem,
              List.mem_cons_self _ _⟩, ?_, ?_, ?_⟩
          · rw [hveq]; rfl
          · rw [hveq]; rfl
          · intro _; rw [hveq]; rfl
        · exact ⟨v, mem_allItemsList.mpr ⟨Item.vt n d e lu meta cs, hx0mem,
            List.mem_cons_of_mem _ hvtail⟩, rfl, rfl, fun hh => hh⟩

theorem reExpand_get_disj (hard eu : Nat) (c : List Item) (j : Nat) :
    (reExpandToolsToHitBudget hard eu c).get? j = c.get? j ∨
      (reExpandToolsToHitBudget hard eu c).get? j =
        (c.get? j).map expandItem := by
  unfold reExpandToolsToHitBudget
  by_cases h : ((visibleCountList c : Nat) : Int) > (eu : Int)
  · rw [if_pos h]
    exact Or.inl rfl
  · rw [if_neg h]
    obtain ⟨sel, _, heq⟩ := expansionLoop_sub hard (some eu) _ c _
    rw [heq]
    rcases foldl_expandAt_get sel c j with h2 | ⟨_, h2⟩
    · exact Or.inl h2
    · exact Or.inr h2

theorem predicted_get_disj (hard : Nat) (predicted : List ToolInfo)
    (c : List Item) (j : Nat) :
    (expandGroupsWithPredictedTools hard predicted c).get? j = c.get? j ∨
      (expandGroupsWithPredictedTools hard predicted c).get? j =
        (c.get? j).map expandItem := by
  unfold expandGroupsWithPredictedTools
  by_cases hp : predicted.isEmpty = true
  · rw [if_pos hp]
    exact Or.inl rfl
  · rw [if_neg hp]
    obtain ⟨sel, _, heq⟩ := expansionLoop_sub hard none _ c _
    rw [heq]
    rcases foldl_expandAt_get sel c j with h2 | ⟨_, h2⟩
    · exact Or.inl h2
    · exact Or.inr h2

/-- C4: (i) every `VirtualTool` of the assembled tree whose name has a
snapshot in the previous tree receives the previous `isExpanded`,
`metadata.preExpanded` and `lastUsedOnTurn`; (ii) in the final tree (after
the expansion passes, which only ever set flags to true) every name-matched
group whose previous snapshot was expanded is still expanded. -/
theorem claim_c4_state_carry_over (cfg : Config) (oracle : Oracle)
    (rankingFlag : Bool) (predicted : List ToolInfo) (prev : List Item)
    (tools : List ToolInfo) :
    (∀ v ∈ allItemsList (assembleContents cfg oracle prev tools),
        ∀ n d e lu meta cs, v = Item.vt n d e lu meta cs →
        ∀ ps, mapGet (buildPrevMap prev) n = some ps →
        e = ps.isExpanded ∧ meta.preExpanded = ps.preExpanded ∧
          lu = ps.lastUsedOnTurn) ∧
    (∀ v ∈ allItemsList
        (addGroups cfg oracle rankingFlag predicted prev tools),
        ∀ ps, mapGet (buildPrevMap prev) (nameOf v) = some ps →
        ps.isExpanded = true → isVt v = true → isExpandedOf v = true) := by
  have hpart1 : ∀ v ∈ allItemsList (assembleContents cfg oracle prev tools),
      ∀ n d e lu meta cs, v = Item.vt n d e lu meta cs →
      ∀ ps, mapGet (buildPrevMap prev) n = some ps →
      e = ps.isExpanded ∧ meta.preExpanded = ps.preExpanded ∧
        lu = ps.lastUsedOnTurn := by
    unfold assembleContents
    by_cases hshort : tools.length < cfg.startGroupingAfterToolCount
    · rw [if_pos hshort]
      intro v hv n d e lu meta cs hveq ps hps
      obtain ⟨t, rfl⟩ := allItemsList_mapTool hv
      cases hveq
    · rw [if_neg hshort]
      exact carryOverList_fields (buildPrevMap prev) _
  refine ⟨hpart1, ?_⟩
  intro v hv ps hps hexp hvt
  unfold addGroups at hv
  by_cases hshort : tools.length < cfg.startGroupingAfterToolCount
  · rw [if_pos hshort] at hv
    obtain ⟨t, rfl⟩ := allItemsList_mapTool hv
    simp [isVt] at hvt
  · rw [if_neg hshort] at hv
    obtain ⟨v1, hv1, hname1, hkind1, himp1⟩ :=
      allItems_of_flagged (reExpand_get_disj cfg.hardToolLimit
        cfg.expandUntilCount _) v hv
    have hrel1 : ∀ j,
        (if rankingFlag then
          expandGroupsWithPredictedTools cfg.hardToolLimit predicted
            (assembleContents cfg oracle prev tools)
        else assembleContents cfg oracle prev tools).get? j =
          (assembleContents cfg oracle prev tools).get? j ∨
        (if rankingFlag then
          expandGroupsWithPredictedTools cfg.hardToolLimit predicted
            (assembleContents cfg oracle prev tools)
        else assembleContents cfg oracle prev tools).get? j =
          ((assembleContents cfg oracle prev tools).get? j).map expandItem := by
      intro j
      cases rankingFlag with
      | true =>
        rw [if_pos rfl]
        exact predicted_get_disj cfg.hardToolLimit predicted _ j
      | false =>
        rw [if_neg (by simp)]
        exact Or.inl rfl
    obtain ⟨v0, hv0, hname0, hkind0, himp0⟩ := allItems_of_flagged hrel1 v1 hv1
    cases hv0v : v0 with
    | tool t =>
      rw [hv0v] at hkind0
      rw [hkind1] at hkind0
      rw [hvt] at hkind0
      cases hkind0
    | vt n0 d0 e0 lu0 meta0 cs0 =>
      have hn0 : n0 = nameOf v := by
        have : nameOf v0 = n0 := by rw [hv0v]; rfl
        rw [← this, hname0, hname1]
      have hfields := hpart1 v0 hv0 n0 d0 e0 lu0 meta0 cs0 hv0v ps
        (by rw [hn0]; exact hps)
      have he0 : isExpandedOf v0 = true := by
        rw [hv0v]
        show e0 = true
        rw [hfields.1, hexp]
      exact himp1 (himp0 he0)

/-- Witness for C4: re-running `addGroups` over `wPrev` regenerates the
group `activate_g`, which receives the previous state (expanded,
pre-expanded, last used on turn 7) and is still expanded in the final
tree. -/
theorem claim_c4_state_carry_over_witness :
    wVtFinal ∈ allItemsList
        (addGroups wCfg wOracleG false [] wPrev [wT1, wT2]) ∧
      isExpandedOf wVtFinal = true := by
  have hmem : wVtFinal ∈ allItemsList
      (addGroups wCfg wOracleG false [] wPrev [wT1, wT2]) := by
    have h : allItemsList (addGroups wCfg wOracleG false [] wPrev [wT1, wT2]) =
        wVtFinal :: [Item.tool wT1, Item.tool wT2] := rfl
    rw [h]
    exact List.mem_cons_self _ _
  refine ⟨hmem, ?_⟩
  exact (claim_c4_state_carry_over wCfg wOracleG false [] wPrev
    [wT1, wT2]).2 wVtFinal hmem ⟨true, true, 7⟩ rfl rfl rfl

end VTool

namespace TEC

/-! ## Batch failure of the embedding service (C6) -/

theorem computeEmbeddingsForTools_mismatch (svc : EmbService)
    (missing : List String) (vs : List Emb)
    (hsvc : svc missing = .ok (some vs)) (hmis : vs.length ≠ missing.length) :
    computeEmbeddingsForTools svc missing false = .ok none := by
  simp [computeEmbeddingsForTools, hsvc, hmis]

theorem computeMissingEmbeddings_mismatch (svc : EmbService)
    (store : List (String × Emb)) (missing : List String) (vs : List Emb)
    (hsvc : svc missing = .ok (some vs)) (hmis : vs.length ≠ missing.length) :
    computeMissingEmbeddings svc store missing false = store := by
  unfold computeMissingEmbeddings
  rw [computeEmbeddingsForTools_mismatch svc missing vs hsvc hmis]
  simp

theorem not_mem_corpus_of_no_vector (store : List (String × Emb))
    (names : List String) (n : String) (hmg : mapGet store n = none) :
    ∀ e : Emb, (n, e) ∉ getAvailableToolEmbeddings store names := by
  intro e hmem
  obtain ⟨n2, _, hn2⟩ := List.mem_filterMap.mp hmem
  cases hg : mapGet store n2 with
  | none => rw [hg] at hn2; cases hn2
  | some e2 =>
    rw [hg] at hn2
    have h1 : n2 = n := congrArg Prod.fst (Option.some.inj hn2)
    rw [h1, hmg] at hg
    cases hg

/-- C6: when the embedding service returns a number of vectors different
from the number of missing names in the batch, nothing from the batch is
stored (the store after the call equals the store after initialization);
every name without a vector is excluded from the corpus handed to the
ranker, and the call returns a plain value computed from that corpus —
no error escapes. -/
theorem claim_c6_batch_failure (pre : List (String × Emb)) (svc : EmbService)
    (ranker : Ranker) (q : Emb) (names : List String) (count : Nat)
    (s : TECState) (vs : List Emb)
    (hsvc : svc (names.filter fun n =>
        (mapGet (ensureInitialized pre s).store n).isNone) = .ok (some vs))
    (hmis : vs.length ≠ (names.filter fun n =>
        (mapGet (ensureInitialized pre s).store n).isNone).length) :
    (retrieveSimilarEmbeddingsForAvailableTools pre svc ranker q names count
        false s).2.store = (ensureInitialized pre s).store ∧
      (∀ n ∈ names, mapGet (ensureInitialized pre s).store n = none →
        ∀ e : Emb, (n, e) ∉ getAvailableToolEmbeddings
          (ensureInitialized pre s).store names) ∧
      (retrieveSimilarEmbeddingsForAvailableTools pre svc ranker q names count
          false s).1 =
        (if (getAvailableToolEmbeddings (ensureInitialized pre s).store
            names).isEmpty then []
         else ranker q
           (getAvailableToolEmbeddings (ensureInitialized pre s).store names)
           count) := by
  have hstore : ensureToolEmbeddings svc (ensureInitialized pre s).store names
      false = (ensureInitialized pre s).store := by
    unfold ensureToolEmbeddings
    rw [if_neg (by simp)]
    exact computeMissingEmbeddings_mismatch svc _ _ vs hsvc hmis
  refine ⟨?_, ?_, ?_⟩
  · simp only [retrieveSimilarEmbeddingsForAvailableTools, hstore,
      Bool.false_eq_true, if_false]
    split <;> rfl
  · intro n _ hmg
    exact not_mem_corpus_of_no_vector _ names n hmg
  · simp only [retrieveSimilarEmbeddingsForAvailableTools, hstore,
      Bool.false_eq_true, if_false]
    by_cases hav : (getAvailableToolEmbeddings (ensureInitialized pre s).store
        names).isEmpty = true
    · simp [hav]
    · simp [hav]

end TEC

namespace VTool

/-! ## A uniquely-named leaf survives deduplication (toward C3) -/

theorem truthy_isVt {x : Item} (h : truthyPfx x = true) : isVt x = true := by
  cases x with
  | tool t => simp [truthyPfx] at h
  | vt n d e lu meta cs => rfl

theorem dedupFold_keeps (t : ToolInfo) (hvp : ¬ hasVp t.name) :
    ∀ (l : List Item) (m : List (String × Item)),
      (mapKeys m).Nodup →
      (∀ kv ∈ m, nameOf kv.2 = kv.1) →
      (∀ v, mapGet m t.name = some v → v = Item.tool t) →
      (∀ i ∈ l, nameOf i = t.name → i = Item.tool t) →
      (∀ i ∈ l, isVt i = true → hasVp (nameOf i)) →
      (mapGet m t.name = some (Item.tool t) ∨ Item.tool t ∈ l) →
      mapGet (l.foldl dedupStep m) t.name = some (Item.tool t) := by
  intro l
  induction l with
  | nil =>
    intro m _ _ _ _ _ hdisj
    rcases hdisj with h | h
    · exact h
    · cases h
  | cons i rest ih =>
    intro m hkeys hent hinv3 huniq hvt hdisj
    have huniq_i : nameOf i = t.name → i = Item.tool t :=
      huniq i (List.mem_cons_self _ _)
    have hstep := dedupStep_inv i hkeys hent
    have hget_name : ∀ k v, mapGet m k = some v → nameOf v = k := by
      intro k v h
      exact hent (k, v) (mapGet_mem h)
    have hm3 : (∀ v, mapGet (dedupStep m i) t.name = some v → v = Item.tool t) ∧
        (mapGet m t.name = some (Item.tool t) →
          mapGet (dedupStep m i) t.name = some (Item.tool t)) ∧
        (i = Item.tool t →
          mapGet (dedupStep m i) t.name = some (Item.tool t)) := by
      unfold dedupStep
      cases hg : mapGet m (nameOf i) with
      | none =>
        refine ⟨?_, ?_, ?_⟩
        · intro v hvget
          rw [mapGet_set] at hvget
          by_cases hni : nameOf i = t.name
          · rw [if_pos hni] at hvget
            rw [← Option.some.inj hvget]
            exact huniq_i hni
          · rw [if_neg hni] at hvget
            exact hinv3 v hvget
        · intro htrack
          rw [mapGet_set]
          by_cases hni : nameOf i = t.name
          · rw [hni] at hg
            rw [hg] at htrack
            cases htrack
          · rw [if_neg hni]
            exact htrack
        · intro hi
          subst hi
          rw [mapGet_set, if_pos (show nameOf (Item.tool t) = t.name from rfl)]
      | some saw =>
        have hsawname : nameOf saw = nameOf i := hget_name _ _ hg
        by_cases htr : truthyPfx saw = true
        · simp only [htr, if_pos]
          have hclone : hasVp (nameOf (cloneWithPfx (prefixOf saw) saw)) :=
            hasVp_clone (truthy_isVt htr) _
          have hclone_ne : nameOf (cloneWithPfx (prefixOf saw) saw) ≠ t.name :=
            ne_of_hasVp hclone hvp
          refine ⟨?_, ?_, ?_⟩
          · intro v hvget
            rw [mapGet_set] at hvget
            by_cases hni : nameOf i = t.name
            · rw [if_pos hni] at hvget
              rw [← Option.some.inj hvget]
              exact huniq_i hni
            · rw [if_neg hni, mapGet_set, if_neg hclone_ne,
                mapGet_delete] at hvget
              by_cases hsn : nameOf saw = t.name
              · rw [if_pos hsn] at hvget
                cases hvget
              · rw [if_neg hsn] at hvget
                exact hinv3 v hvget
          · intro htrack
            by_cases hni : nameOf i = t.name
            · exfalso
              have hsawt : saw = Item.tool t := hinv3 saw (by rw [← hni]; exact hg)
              rw [hsawt] at htr
              simp [truthyPfx] at htr
            · rw [mapGet_set, if_neg hni, mapGet_set, if_neg hclone_ne,
                mapGet_delete, if_neg (by rw [hsawname]; exact hni)]
              exact htrack
          · intro hi
            exfalso
            have hni : nameOf i = t.name := by rw [hi]; rfl
            have hsawt : saw = Item.tool t := hinv3 saw (by rw [← hni]; exact hg)
            rw [hsawt] at htr
            simp [truthyPfx] at htr
        · simp only [htr, if_neg, if_false, Bool.false_eq_true]
          by_cases htr2 : truthyPfx i = true
          · simp only [htr2, if_pos]
            have hclone : hasVp (nameOf (cloneWithPfx (prefixOf i) i)) :=
              hasVp_clone (truthy_isVt htr2) _
            have hclone_ne : nameOf (cloneWithPfx (prefixOf i) i) ≠ t.name :=
              ne_of_hasVp hclone hvp
            refine ⟨?_, ?_, ?_⟩
            · intro v hvget
              rw [mapGet_set, if_neg hclone_ne] at hvget
              exact hinv3 v hvget
            · intro htrack
              rw [mapGet_set, if_neg hclone_ne]
              exact htrack
            · intro hi
              rw [hi] at htr2
              simp [truthyPfx] at htr2
          · simp only [htr2, if_neg, if_false, Bool.false_eq_true]
            refine ⟨hinv3, fun htrack => htrack, ?_⟩
            intro hi
            have hni : nameOf i = t.name := by rw [hi]; rfl
            have hsawt : saw = Item.tool t := hinv3 saw (by rw [← hni]; exact hg)
            rw [← hni, hg, hsawt]
    apply ih (dedupStep m i) hstep.1 hstep.2 hm3.1
      (fun j hj => huniq j (List.mem_cons_of_mem _ hj))
      (fun j hj => hvt j (List.mem_cons_of_mem _ hj))
    rcases hdisj with htrack | hmem
    · exact Or.inl (hm3.2.1 htrack)
    · rcases List.mem_cons.mp hmem with hi | hi
      · exact Or.inl (hm3.2.2 hi.symm)
      · exact Or.inr hi

theorem dedup_keeps_leaf (l : List Item) (t : ToolInfo) (hvp : ¬ hasVp t.name)
    (huniq : ∀ i ∈ l, nameOf i = t.name → i = Item.tool t)
    (hvt : ∀ i ∈ l, isVt i = true → hasVp (nameOf i))
    (hmem : Item.tool t ∈ l) :
    Item.tool t ∈ deduplicateGroups l := by
  have h := dedupFold_keeps t hvp l [] (by simp [mapKeys])
    (by intro kv hkv; cases hkv) (by intro v hv; cases hv) huniq hvt
    (Or.inr hmem)
  exact mem_values_of_get h

end VTool

namespace VTool

/-! ## Where items of the flattened per-toolset outputs come from (C3) -/

theorem categorizeWithRetries_some_src
    (oracleK : Nat → Except OracleError (Option (List ToolCategory))) :
    ∀ (fuel att : Nat) (cats : List ToolCategory),
      categorizeWithRetries oracleK fuel att = some cats →
      ∃ a, oracleK a = .ok (some cats) := by
  intro fuel
  induction fuel with
  | zero => intro att cats h; cases h
  | succ f ih =>
    intro att cats h
    unfold categorizeWithRetries at h
    cases ho : oracleK att with
    | ok o =>
      cases o with
      | some v =>
        rw [ho] at h
        have hv : v = cats := Option.some.inj h
        exact ⟨att, by rw [ho, hv]⟩
      | none =>
        rw [ho] at h
        exact ih (att + 1) cats h
    | error e =>
      rw [ho] at h
      exact ih (att + 1) cats h

theorem gen_failed (cfg : Config) (oracle : Oracle) (K : String)
    (g : List ToolInfo) (hfail : ∀ a r, oracle K a ≠ .ok (some r)) :
    generateGroupsFromToolset cfg oracle K g = g.map Item.tool := by
  unfold generateGroupsFromToolset
  by_cases h : g.length ≤ cfg.minToolsetSizeToGroup
  · rw [if_pos h]
  · rw [if_neg h, categorizeWithRetries_none _ hfail _ 0]

theorem genUncat_src (uncatName : String) (cats : List ToolCategory) :
    ∀ u ∈ genUncat uncatName cats, ∃ g ∈ cats, u ∈ g.tools := by
  intro u hu
  unfold genUncat at hu
  cases hidx : cats.findIdx? fun g => g.name = uncatName with
  | none => rw [hidx] at hu; cases hu
  | some i =>
    rw [hidx] at hu
    have hu2 : u ∈ (match cats.get? i with
      | some g => g.tools
      | none => ([] : List ToolInfo)) := hu
    cases hget : cats.get? i with
    | none => rw [hget] at hu2; cases hu2
    | some g =>
      rw [hget] at hu2
      exact ⟨g, List.get?_mem hget, hu2⟩

theorem gen_some_eq (cfg : Config) (oracle : Oracle) (key : String)
    (ts : List ToolInfo) (cats : List ToolCategory)
    (hc : categorizeWithRetries (oracle key) cfg.maxCategorizationRetries 0 =
      some cats)
    (hlen : ¬ ts.length ≤ cfg.minToolsetSizeToGroup) :
    generateGroupsFromToolset cfg oracle key ts =
      (genVirts cfg.uncategorizedGroupName cats).map
        (mkVtItem key (possiblePrefixFromSource ((ts.head?).map (·.source)))
          (genVirts cfg.uncategorizedGroupName cats))
      ++ (genUncat cfg.uncategorizedGroupName cats).map Item.tool := by
  unfold generateGroupsFromToolset
  rw [if_neg hlen, hc]

theorem gen_leaf_src (cfg : Config) (oracle : Oracle) (key : String)
    (ts : List ToolInfo) (x : ToolInfo)
    (hx : Item.tool x ∈ generateGroupsFromToolset cfg oracle key ts) :
    x ∈ ts ∨ ∃ a cats g, oracle key a = .ok (some cats) ∧ g ∈ cats ∧
      x ∈ g.tools := by
  by_cases hlen : ts.length ≤ cfg.minToolsetSizeToGroup
  · left
    unfold generateGroupsFromToolset at hx
    rw [if_pos hlen] at hx
    obtain ⟨u, hu, hueq⟩ := List.mem_map.mp hx
    have : u = x := by injection hueq
    exact this ▸ hu
  · cases hc : categorizeWithRetries (oracle key)
        cfg.maxCategorizationRetries 0 with
    | none =>
      left
      have he : generateGroupsFromToolset cfg oracle key ts =
          ts.map Item.tool := by
        unfold generateGroupsFromToolset
        rw [if_neg hlen, hc]
      rw [he] at hx
      obtain ⟨u, hu, hueq⟩ := List.mem_map.mp hx
      have : u = x := by injection hueq
      exact this ▸ hu
    | some cats =>
      rw [gen_some_eq cfg oracle key ts cats hc hlen] at hx
      rw [List.mem_append] at hx
      rcases hx with hx | hx
      · obtain ⟨v, _, hveq⟩ := List.mem_map.mp hx
        simp [mkVtItem] at hveq
      · obtain ⟨u, hu, hueq⟩ := List.mem_map.mp hx
        have hux : u = x := by injection hueq
        subst hux
        obtain ⟨g, hg, hug⟩ := genUncat_src _ cats u hu
        obtain ⟨a, ha⟩ := categorizeWithRetries_some_src _ _ _ _ hc
        exact Or.inr ⟨a, cats, g, ha, hg, hug⟩

/-! ## Facts about the toolset partition -/

theorem groupAppend_src (P : ToolInfo → String → Prop) :
    ∀ (m : List (String × List ToolInfo)) (k : String) (u : ToolInfo),
      (∀ kv ∈ m, ∀ x ∈ kv.2, P x kv.1) → P u k →
      ∀ kv ∈ groupAppend m k u, ∀ x ∈ kv.2, P x kv.1 := by
  intro m
  induction m with
  | nil =>
    intro k u _ hu kv hkv x hx
    have hkveq : kv = (k, [u]) := List.mem_singleton.mp hkv
    rw [hkveq] at hx ⊢
    have : x = u := List.mem_singleton.mp hx
    rw [this]
    exact hu
  | cons p mrest ih =>
    intro k u hm hu kv hkv x hx
    obtain ⟨k1, g1⟩ := p
    by_cases h1 : k1 = k
    · rw [show groupAppend ((k1, g1) :: mrest) k u = (k1, g1 ++ [u]) :: mrest
        from by simp [groupAppend, h1]] at hkv
      rcases List.mem_cons.mp hkv with hkveq | hkv2
      · rw [hkveq] at hx ⊢
        rcases List.mem_append.mp hx with hx1 | hx1
        · exact hm (k1, g1) (List.mem_cons_self _ _) x hx1
        · rw [List.mem_singleton.mp hx1]
          rw [h1]
          exact hu
      · exact hm kv (List.mem_cons_of_mem _ hkv2) x hx
    · rw [show groupAppend ((k1, g1) :: mrest) k u =
          (k1, g1) :: groupAppend mrest k u from by simp [groupAppend, h1]] at hkv
      rcases List.mem_cons.mp hkv with hkveq | hkv2
      · rw [hkveq] at hx ⊢
        exact hm (k1, g1) (List.mem_cons_self _ _) x hx
      · exact ih k u (fun kv2 hkv2b => hm kv2 (List.mem_cons_of_mem _ hkv2b))
          hu kv hkv2 x hx

theorem groupBy_src (tools : List ToolInfo) :
    ∀ kv ∈ groupByToolset tools, ∀ x ∈ kv.2,
      x ∈ tools ∧ toolsetKeyOf x = kv.1 := by
  have hgen : ∀ (l : List ToolInfo) (acc : List (String × List ToolInfo)),
      (∀ v ∈ l, v ∈ tools) →
      (∀ kv ∈ acc, ∀ x ∈ kv.2, x ∈ tools ∧ toolsetKeyOf x = kv.1) →
      ∀ kv ∈ l.foldl (fun a u => groupAppend a (toolsetKeyOf u) u) acc,
        ∀ x ∈ kv.2, x ∈ tools ∧ toolsetKeyOf x = kv.1 := by
    intro l
    induction l with
    | nil => intro acc _ hacc; exact hacc
    | cons u lrest ih =>
      intro acc hl hacc
      apply ih
      · intro v hv
        exact hl v (List.mem_cons_of_mem _ hv)
      · exact groupAppend_src
          (fun x k => x ∈ tools ∧ toolsetKeyOf x = k) acc
          (toolsetKeyOf u) u hacc ⟨hl u (List.mem_cons_self _ _), rfl⟩
  exact hgen tools [] (fun v hv => hv) (by intro kv hkv; cases hkv)

theorem groupAppend_keeps {m : List (String × List ToolInfo)} {k0 : String}
    {g0 : List ToolInfo} (hm : (k0, g0) ∈ m) (k : String) (u : ToolInfo) :
    ∃ g2, (k0, g2) ∈ groupAppend m k u ∧ ∀ x ∈ g0, x ∈ g2 := by
  induction m with
  | nil => cases hm
  | cons p mrest ih =>
    obtain ⟨k1, g1⟩ := p
    by_cases h1 : k1 = k
    · rw [show groupAppend ((k1, g1) :: mrest) k u = (k1, g1 ++ [u]) :: mrest
        from by simp [groupAppend, h1]]
      rcases List.mem_cons.mp hm with hkveq | hm2
      · have hk : k0 = k1 := congrArg Prod.fst hkveq
        have hg : g0 = g1 := congrArg Prod.snd hkveq
        subst hk
        subst hg
        exact ⟨g0 ++ [u], List.mem_cons_self _ _,
          fun x hx => List.mem_append_left _ hx⟩
      · exact ⟨g0, List.mem_cons_of_mem _ hm2, fun x hx => hx⟩
    · rw [show groupAppend ((k1, g1) :: mrest) k u =
          (k1, g1) :: groupAppend mrest k u from by simp [groupAppend, h1]]
      rcases List.mem_cons.mp hm with hkveq | hm2
      · exact ⟨g0, by rw [hkveq]; exact List.mem_cons_self _ _,
          fun x hx => hx⟩
      · obtain ⟨g2, hg2, hsub⟩ := ih hm2
        exact ⟨g2, List.mem_cons_of_mem _ hg2, hsub⟩

theorem groupAppend_arrives (m : List (String × List ToolInfo))
    (u : ToolInfo) (k : String) :
    ∃ g2, (k, g2) ∈ groupAppend m k u ∧ u ∈ g2 := by
  induction m with
  | nil => exact ⟨[u], List.mem_singleton.mpr rfl, List.mem_singleton.mpr rfl⟩
  | cons p mrest ih =>
    obtain ⟨k1, g1⟩ := p
    by_cases h1 : k1 = k
    · subst h1
      rw [show groupAppend ((k1, g1) :: mrest) k1 u = (k1, g1 ++ [u]) :: mrest
        from by simp [groupAppend]]
      exact ⟨g1 ++ [u], List.mem_cons_self _ _,
        List.mem_append_right _ (List.mem_singleton.mpr rfl)⟩
    · rw [show groupAppend ((k1, g1) :: mrest) k u =
          (k1, g1) :: groupAppend mrest k u from by simp [groupAppend, h1]]
      obtain ⟨g2, hg2, hu2⟩ := ih
      exact ⟨g2, List.mem_cons_of_mem _ hg2, hu2⟩

theorem groupBy_arrives (tools : List ToolInfo) (t : ToolInfo)
    (ht : t ∈ tools) :
    ∃ g, (toolsetKeyOf t, g) ∈ groupByToolset tools ∧ t ∈ g := by
  have hgen : ∀ (l : List ToolInfo) (acc : List (String × List ToolInfo)),
      (t ∈ l ∨ ∃ g, (toolsetKeyOf t, g) ∈ acc ∧ t ∈ g) →
      ∃ g, (toolsetKeyOf t, g) ∈
          l.foldl (fun a u => groupAppend a (toolsetKeyOf u) u) acc ∧
        t ∈ g := by
    intro l
    induction l with
    | nil =>
      intro acc h
      rcases h with h | h
      · cases h
      · exact h
    | cons u lrest ih =>
      intro acc h
      apply ih
      rcases h with h | ⟨g, hg, htg⟩
      · rcases List.mem_cons.mp h with hteq | h2
        · right
          rw [hteq]
          exact groupAppend_arrives acc u (toolsetKeyOf u)
        · left
          exact h2
      · right
        obtain ⟨g2, hg2, hsub⟩ := groupAppend_keeps hg (toolsetKeyOf u) u
        exact ⟨g2, hg2, hsub t htg⟩
  exact hgen tools [] (Or.inl ht)

end VTool

namespace VTool

/-! ## A failed toolset's tools survive the whole pipeline (C3) -/

theorem mem_flattenGrouped (cfg : Config) (oracle : Oracle)
    (tools : List ToolInfo) (x : Item) :
    x ∈ flattenGrouped cfg oracle tools ↔ ∃ kv ∈ groupByToolset tools,
      x ∈ (if kv.1 = BUILT_IN_GROUP then kv.2.map Item.tool
        else generateGroupsFromToolset cfg oracle kv.1 kv.2) := by
  unfold flattenGrouped
  rw [List.mem_flatten]
  constructor
  · rintro ⟨sub, hsub, hx⟩
    obtain ⟨kv, hkv, rfl⟩ := List.mem_map.mp hsub
    exact ⟨kv, hkv, hx⟩
  · rintro ⟨kv, hkv, hx⟩
    exact ⟨_, List.mem_map_of_mem _ hkv, hx⟩

theorem flatten_item_facts (cfg : Config) (oracle : Oracle)
    (tools : List ToolInfo)
    (hsub : ∀ k a cats, oracle k a = .ok (some cats) →
      ∀ g ∈ cats, ∀ u ∈ g.tools, u ∈ tools ∧ toolsetKeyOf u = k) :
    ∀ i ∈ flattenGrouped cfg oracle tools,
      (∃ u, i = Item.tool u ∧ u ∈ tools) ∨
        (isVt i = true ∧ hasVp (nameOf i)) := by
  intro i hi
  obtain ⟨kv, hkv, hx⟩ := (mem_flattenGrouped cfg oracle tools i).mp hi
  by_cases hb : kv.1 = BUILT_IN_GROUP
  · rw [if_pos hb] at hx
    obtain ⟨u, hu, rfl⟩ := List.mem_map.mp hx
    exact Or.inl ⟨u, rfl, (groupBy_src tools kv hkv u hu).1⟩
  · rw [if_neg hb] at hx
    rcases gen_shape cfg oracle kv.1 kv.2 i hx with ⟨u, rfl⟩ | ⟨v, virts, rfl⟩
    · rcases gen_leaf_src cfg oracle kv.1 kv.2 u hx with hu |
        ⟨a, cats, g, ha, hg, hug⟩
      · exact Or.inl ⟨u, rfl, (groupBy_src tools kv hkv u hu).1⟩
      · exact Or.inl ⟨u, rfl, (hsub kv.1 a cats ha g hg u hug).1⟩
    · exact Or.inr ⟨rfl, ⟨v.name, rfl⟩⟩

theorem carryOver_keeps_leaf {pm : List (String × PrevState)} {t : ToolInfo} :
    ∀ {l : List Item}, Item.tool t ∈ l →
      Item.tool t ∈ carryOverList pm l := by
  intro l
  induction l with
  | nil => intro h; cases h
  | cons x xs ih =>
    intro h
    rcases List.mem_cons.mp h with hx | hx
    · rw [← hx]
      exact List.mem_cons_self _ _
    · exact List.mem_cons_of_mem _ (ih hx)

theorem pass_keeps_leaf {c c2 : List Item}
    (h : ∀ j, c2.get? j = c.get? j ∨ c2.get? j = (c.get? j).map expandItem)
    {t : ToolInfo} (hm : Item.tool t ∈ c) : Item.tool t ∈ c2 := by
  obtain ⟨j, hj⟩ := List.mem_iff_get?.mp hm
  rcases h j with h2 | h2
  · apply List.get?_mem
    rw [h2, hj]
  · apply List.get?_mem
    rw [h2, hj]
    rfl

/-- C3: when the categorization oracle of one toolset fails on all of its
attempts, every tool of that toolset appears individually as a leaf in the
final `root.contents` — no tool is dropped.  The hypotheses record the data
model: input tool names are globally unique and never carry the synthetic
group-name prefix, and oracle categorizations only reference tools of the
toolset they were asked about.  The conclusion is a plain value — the
embedded `addGroups` is total, mirroring the source where the retry loop
catches every oracle error. -/
theorem claim_c3_failed_oracle_keeps_tools (cfg : Config) (oracle : Oracle)
    (rankingFlag : Bool) (predicted : List ToolInfo) (prev : List Item)
    (tools : List ToolInfo) (K : String) (t : ToolInfo)
    (hnodup : (tools.map (·.name)).Nodup)
    (hnovp : ∀ u ∈ tools, ¬ hasVp u.name)
    (hsub : ∀ k a cats, oracle k a = .ok (some cats) →
      ∀ g ∈ cats, ∀ u ∈ g.tools, u ∈ tools ∧ toolsetKeyOf u = k)
    (hfail : ∀ a r, oracle K a ≠ .ok (some r))
    (ht : t ∈ tools) (htk : toolsetKeyOf t = K) :
    Item.tool t ∈ addGroups cfg oracle rankingFlag predicted prev tools := by
  unfold addGroups
  by_cases hshort : tools.length < cfg.startGroupingAfterToolCount
  · rw [if_pos hshort]
    exact List.mem_map_of_mem _ ht
  · rw [if_neg hshort]
    have hflat : Item.tool t ∈ flattenGrouped cfg oracle tools := by
      obtain ⟨g, hg, htg⟩ := groupBy_arrives tools t ht
      rw [htk] at hg
      apply (mem_flattenGrouped cfg oracle tools _).mpr
      refine ⟨(K, g), hg, ?_⟩
      by_cases hb : K = BUILT_IN_GROUP
      · rw [if_pos hb]
        exact List.mem_map_of_mem _ htg
      · rw [if_neg hb, gen_failed cfg oracle K g hfail]
        exact List.mem_map_of_mem _ htg
    have hvpt : ¬ hasVp t.name := hnovp t ht
    have hfacts := flatten_item_facts cfg oracle tools hsub
    have huniq : ∀ i ∈ flattenGrouped cfg oracle tools,
        nameOf i = t.name → i = Item.tool t := by
      intro i hi hni
      rcases hfacts i hi with ⟨u, rfl, hu⟩ | ⟨_, hvp2⟩
      · have : u = t := List.inj_on_of_nodup_map hnodup hu ht hni
        rw [this]
      · exact absurd hni (ne_of_hasVp hvp2 hvpt)
    have hvtf : ∀ i ∈ flattenGrouped cfg oracle tools,
        isVt i = true → hasVp (nameOf i) := by
      intro i hi hv
      rcases hfacts i hi with ⟨u, rfl, _⟩ | ⟨_, hvp2⟩
      · simp [isVt] at hv
      · exact hvp2
    have hded : Item.tool t ∈
        deduplicateGroups (flattenGrouped cfg oracle tools) :=
      dedup_keeps_leaf _ t hvpt huniq hvtf hflat
    have hassem : Item.tool t ∈ assembleContents cfg oracle prev tools := by
      unfold assembleContents
      rw [if_neg hshort]
      exact carryOver_keeps_leaf hded
    have hafter : Item.tool t ∈
        (if rankingFlag then
          expandGroupsWithPredictedTools cfg.hardToolLimit predicted
            (assembleContents cfg oracle prev tools)
        else assembleContents cfg oracle prev tools) := by
      cases rankingFlag with
      | false =>
        rw [if_neg (by simp)]
        exact hassem
      | true =>
        rw [if_pos rfl]
        exact pass_keeps_leaf
          (predicted_get_disj cfg.hardToolLimit predicted _) hassem
    exact pass_keeps_leaf
      (reExpand_get_disj cfg.hardToolLimit cfg.expandUntilCount _) hafter

/-- Witness for C3: an always-cancelling oracle on the `mcp_s` toolset —
`wT1` still appears as a leaf of the final contents. -/
theorem claim_c3_failed_oracle_keeps_tools_witness :
    Item.tool wT1 ∈ addGroups wCfg wOracleCancel false [] [] [wT1, wT2] := by
  apply claim_c3_failed_oracle_keeps_tools wCfg wOracleCancel false [] []
    [wT1, wT2] "mcp_s" wT1
  · decide
  · intro u hu
    have hlen : u.name.length < VIRTUAL_TOOL_NAME_PFX.length := by
      rcases List.mem_cons.mp hu with h | h
      · rw [h]; decide
      · rcases List.mem_cons.mp h with h2 | h2
        · rw [h2]; decide
        · cases h2
    exact not_hasVp_short hlen
  · intro k a cats h
    simp [wOracleCancel] at h
  · intro a r h
    simp [wOracleCancel] at h
  · exact List.mem_cons_self _ _
  · rfl

end VTool

namespace TEC

/-- Witness for C6: the snapshot provides a vector for `"a"` only, the
service answers the missing batch `["b"]` with zero vectors — nothing is
stored, `"b"` is excluded from the corpus, and the call returns the ranked
corpus `["a"]`. -/
theorem claim_c6_batch_failure_witness :
    (retrieveSimilarEmbeddingsForAvailableTools wPre wSvc wRanker [2]
        ["a", "b"] 2 false wS0).2.store =
      (ensureInitialized wPre wS0).store ∧
    (∀ n ∈ ["a", "b"], mapGet (ensureInitialized wPre wS0).store n = none →
      ∀ e : Emb, (n, e) ∉ getAvailableToolEmbeddings
        (ensureInitialized wPre wS0).store ["a", "b"]) ∧
    (retrieveSimilarEmbeddingsForAvailableTools wPre wSvc wRanker [2]
        ["a", "b"] 2 false wS0).1 =
      (if (getAvailableToolEmbeddings (ensureInitialized wPre wS0).store
          ["a", "b"]).isEmpty then []
       else wRanker [2] (getAvailableToolEmbeddings
         (ensureInitialized wPre wS0).store ["a", "b"]) 2) :=
  claim_c6_batch_failure wPre wSvc wRanker [2] ["a", "b"] 2 wS0 [] rfl
    (by decide)

end TEC
